import Mathlib

/-!
Verification of the shift-scheduling frontend's lane-layout engine
(`computeShiftLaneLayout` and friends in
`frontend/static/js/manager-shifts/time-utils.js`), its geometry mapping,
and the JSON response parser in `frontend/static/js/app.js`.

JavaScript numbers are modelled as `Int` (for minute arithmetic, which is
integral throughout) and `ℚ` (for pixel geometry).  JS strings are `String`,
JS `Map` insertion-order semantics are modelled by an association list with
update-in-place (`mapSet`).
-/

namespace BP

/-! ### Time parsing (`parseTimeToMinutes`) -/

/-- `String(value).split(sep)` semantics for a one-character separator,
working over the character list. `"".split(c) = [""]`. -/
def splitChars (sep : Char) : List Char → List (List Char)
  | [] => [[]]
  | c :: cs =>
    let rest := splitChars sep cs
    if c = sep then [] :: rest
    else
      match rest with
      | r :: rs => (c :: r) :: rs
      | [] => [[c]]

/-- Value of a nonempty leading digit run; `none` when the first character is
not a decimal digit (JS `parseInt` yields `NaN`). -/
def leadingDigits (cs : List Char) : Option Nat :=
  let ds := cs.takeWhile Char.isDigit
  if ds.isEmpty then none
  else some (ds.foldl (fun n c => n * 10 + (c.toNat - 48)) 0)

/-- White space per ECMA-262 (the set `parseInt` trims): tab, LF, VT, FF,
CR, space, NBSP, Ogham space, the Zs range U+2000..U+200A, line/paragraph
separators, narrow NBSP, math space, ideographic space, and ZWNBSP. -/
def jsWhitespace (c : Char) : Bool :=
  let n := c.toNat
  decide (n = 9 ∨ n = 10 ∨ n = 11 ∨ n = 12 ∨ n = 13 ∨ n = 32 ∨ n = 160 ∨
    n = 0x1680 ∨ (0x2000 ≤ n ∧ n ≤ 0x200A) ∨ n = 0x2028 ∨ n = 0x2029 ∨
    n = 0x202F ∨ n = 0x205F ∨ n = 0x3000 ∨ n = 0xFEFF)

/-- JS `parseInt(s, 10)`: skip leading white space, optional sign, longest
digit prefix; `none` models `NaN`. -/
def parseIntJS (cs : List Char) : Option Int :=
  let t := cs.dropWhile jsWhitespace
  match t with
  | '-' :: rest => (leadingDigits rest).map (fun n => -(n : Int))
  | '+' :: rest => (leadingDigits rest).map (fun n => (n : Int))
  | _ => (leadingDigits t).map (fun n => (n : Int))

/-- `parseTimeToMinutes(value)` from time-utils.js.  A missing or empty value
falls back to the literal `"00:00"`; each of the first two `":"`-separated
components is parsed with `parseInt` and coerced to `0` when not finite. -/
def parseTimeToMinutes (value : Option String) : Int :=
  let sv : String :=
    match value with
    | none => "00:00"
    | some v => if v = "" then "00:00" else v
  let parts := (splitChars ':' sv.data).take 2
  let h : Option Int := match parts with | p :: _ => parseIntJS p | [] => none
  let m : Option Int := match parts with | _ :: p :: _ => parseIntJS p | _ => none
  h.getD 0 * 60 + m.getD 0

/-! ### Shift records and parsed items -/

/-- The fields of a shift record consumed by the layout engine. -/
structure ShiftRec where
  id : String
  start_time : Option String
  end_time : Option String
  deriving DecidableEq, Repr

/-- A parsed interval: `{id, start, end}` (the JS `end` field is `stop`). -/
structure Item where
  id : String
  start : Int
  stop : Int
  deriving DecidableEq, Repr

/-- The `.map` step of `computeShiftLaneLayout`. -/
def shiftToItem (s : ShiftRec) : Item :=
  { id := s.id
    start := parseTimeToMinutes s.start_time
    stop := parseTimeToMinutes s.end_time }

/-! ### The sort comparator -/

/-- Lexicographic comparison of character lists by code point.  This is the
spec's "ascending-as-string" order; it is not the semantics of the host's
`localeCompare`, whose collation is locale-defined (ECMA-402) — see
`computeShiftLaneLayoutWith`, which takes the id collation as a parameter. -/
def lexLeChars : List Char → List Char → Bool
  | [], _ => true
  | _ :: _, [] => false
  | a :: as, b :: bs =>
    if a.toNat < b.toNat then true
    else if b.toNat < a.toNat then false
    else lexLeChars as bs

/-- Code-point order on strings.  Used as the default instantiation of the
id tie-break for the claims whose properties do not depend on which
consistent collation `localeCompare` resolves to on the host. -/
def strLe (a b : String) : Bool := lexLeChars a.data b.data

/-- The comparator `(a, b) => a.start - b.start || a.end - b.end ||
a.id.localeCompare(b.id)` read as a `≤` relation, with the host-defined
`localeCompare` instantiated at code-point order (`strLe`).  The
collation-parametric form is `ItemLEWith`; tie-break-agnostic properties are
unaffected by the instantiation. -/
def ItemLE (a b : Item) : Prop :=
  a.start < b.start ∨
    (a.start = b.start ∧
      (a.stop < b.stop ∨ (a.stop = b.stop ∧ strLe a.id b.id = true)))

instance : DecidableRel ItemLE := fun a b => by
  unfold ItemLE; infer_instance

/-! ### First-fit lane assignment -/

/-- Scan `laneEnds` from lane 0 upward for the first lane whose recorded end
is at or before `s` (`it.start >= laneEnds[i]`). -/
def firstFit (s : Int) : List Int → Option Nat
  | [] => none
  | e :: es => if e ≤ s then some 0 else (firstFit s es).map (· + 1)

/-- JS `Map.prototype.set`: update in place when the key is present
(insertion order preserved), otherwise append. -/
def mapSet (m : List (String × Nat)) (k : String) (v : Nat) :
    List (String × Nat) :=
  if m.any (fun p => p.1 = k) then
    m.map (fun p => if p.1 = k then (k, v) else p)
  else m ++ [(k, v)]

/-- The `items.forEach` loop of `computeShiftLaneLayout`, carrying the
`laneById` map and the `laneEnds` array. -/
def goLanes : List Item → List Int → List (String × Nat) →
    List (String × Nat) × List Int
  | [], ends, m => (m, ends)
  | it :: rest, ends, m =>
    match firstFit it.start ends with
    | some i => goLanes rest (ends.set i it.stop) (mapSet m it.id i)
    | none => goLanes rest (ends ++ [it.stop]) (mapSet m it.id ends.length)

/-- The result `{ laneById, laneCount }`. -/
structure LaneLayout where
  laneById : List (String × Nat)
  laneCount : Nat
  deriving DecidableEq, Repr

/-- The `.map(...).sort(...)` pipeline of `computeShiftLaneLayout`. -/
def sortedItems (shifts : List ShiftRec) : List Item :=
  List.insertionSort ItemLE (shifts.map shiftToItem)

/-- Function `computeShiftLaneLayout(shifts)` from time-utils.js, with the
id tie-break collation instantiated at code-point order; the
collation-parametric model is `computeShiftLaneLayoutWith` and
`computeShiftLaneLayout = computeShiftLaneLayoutWith strLe`. -/
def computeShiftLaneLayout (shifts : List ShiftRec) : LaneLayout :=
  let items := sortedItems shifts
  let r := goLanes items [] []
  { laneById := r.1, laneCount := max 1 r.2.length }

/-- `laneById.get(id)` on the association-list model. -/
def lookupLane (m : List (String × Nat)) (k : String) : Option Nat :=
  (m.find? (fun p => p.1 = k)).map Prod.snd

/-! ### Order facts about the comparator -/

theorem char_toNat_inj {a b : Char} (h : a.toNat = b.toNat) : a = b := by
  exact_mod_cast Char.ofNat_toNat a ▸ Char.ofNat_toNat b ▸ congrArg Char.ofNat h

theorem lexLeChars_total :
    ∀ a b : List Char, lexLeChars a b = true ∨ lexLeChars b a = true := by
  intro a
  induction a with
  | nil => intro b; left; rfl
  | cons x xs ih =>
    intro b
    cases b with
    | nil => right; rfl
    | cons y ys =>
      simp only [lexLeChars]
      rcases Nat.lt_trichotomy x.toNat y.toNat with h | h | h
      · left; simp [h]
      · have : ¬ x.toNat < y.toNat := by omega
        have h2 : ¬ y.toNat < x.toNat := by omega
        rcases ih ys with hh | hh
        · left; simp [this, h2, hh]
        · right; simp [this, h2, hh]
      · right; simp [h]

theorem lexLeChars_trans :
    ∀ a b c : List Char, lexLeChars a b = true → lexLeChars b c = true →
      lexLeChars a c = true := by
  intro a
  induction a with
  | nil => intro b c _ _; rfl
  | cons x xs ih =>
    intro b c hab hbc
    cases b with
    | nil => simp [lexLeChars] at hab
    | cons y ys =>
      cases c with
      | nil => simp [lexLeChars] at hbc
      | cons z zs =>
        simp only [lexLeChars] at hab hbc ⊢
        split_ifs at hab hbc ⊢ with h1 h2 h3 h4 h5 h6 <;>
          first
            | rfl
            | omega
            | (exact ih ys zs hab hbc)

theorem lexLeChars_antisymm :
    ∀ a b : List Char, lexLeChars a b = true → lexLeChars b a = true →
      a = b := by
  intro a
  induction a with
  | nil =>
    intro b _ hba
    cases b with
    | nil => rfl
    | cons y ys => simp [lexLeChars] at hba
  | cons x xs ih =>
    intro b hab hba
    cases b with
    | nil => simp [lexLeChars] at hab
    | cons y ys =>
      simp only [lexLeChars] at hab hba
      split_ifs at hab hba with h1 h2
      · omega
      · have hxy : x = y := char_toNat_inj (by omega)
        rw [hxy, ih ys hab hba]

theorem strLe_total (a b : String) : strLe a b = true ∨ strLe b a = true :=
  lexLeChars_total a.data b.data

theorem strLe_trans {a b c : String} (h1 : strLe a b = true)
    (h2 : strLe b c = true) : strLe a c = true :=
  lexLeChars_trans a.data b.data c.data h1 h2

theorem strLe_antisymm {a b : String} (h1 : strLe a b = true)
    (h2 : strLe b a = true) : a = b := by
  have hd : a.data = b.data := lexLeChars_antisymm a.data b.data h1 h2
  cases a; cases b; exact congrArg String.mk hd

instance : IsTotal Item ItemLE := by
  constructor
  intro a b
  unfold ItemLE
  rcases Int.lt_trichotomy a.start b.start with h | h | h
  · left; left; exact h
  · rcases Int.lt_trichotomy a.stop b.stop with h2 | h2 | h2
    · left; right; exact ⟨h, Or.inl h2⟩
    · rcases strLe_total a.id b.id with h3 | h3
      · left; right; exact ⟨h, Or.inr ⟨h2, h3⟩⟩
      · right; right; exact ⟨h.symm, Or.inr ⟨h2.symm, h3⟩⟩
    · right; right; exact ⟨h.symm, Or.inl h2⟩
  · right; left; exact h

instance : IsTrans Item ItemLE := by
  constructor
  intro a b c hab hbc
  unfold ItemLE at hab hbc ⊢
  rcases hab with h | ⟨he, h⟩ <;> rcases hbc with h2 | ⟨he2, h2⟩
  · left; exact lt_trans h h2
  · left; omega
  · left; omega
  · right
    refine ⟨by omega, ?_⟩
    rcases h with h | ⟨hs, h⟩ <;> rcases h2 with h2 | ⟨hs2, h2⟩
    · left; exact lt_trans h h2
    · left; omega
    · left; omega
    · right; exact ⟨by omega, strLe_trans h h2⟩

instance : IsAntisymm Item ItemLE := by
  constructor
  intro a b hab hba
  unfold ItemLE at hab hba
  have h1 : a.start = b.start := by omega
  have h2 : a.stop = b.stop := by
    rcases hab with h | ⟨_, h⟩ <;> rcases hba with h' | ⟨_, h'⟩ <;> omega
  have h3 : a.id = b.id := by
    rcases hab with h | ⟨_, h | ⟨_, h⟩⟩ <;>
      rcases hba with h' | ⟨_, h' | ⟨_, h'⟩⟩ <;>
        first
          | omega
          | exact strLe_antisymm h h'
  cases a; cases b
  simp_all

/-! ### The run trace: items paired with their assigned lanes -/

/-- Specification-level trace of the `forEach` loop: the list of
(item, lane) assignments in processing order, plus the final `laneEnds`. -/
def runPairs : List Item → List Int → List (Item × Nat) × List Int
  | [], ends => ([], ends)
  | it :: rest, ends =>
    match firstFit it.start ends with
    | some i =>
      let r := runPairs rest (ends.set i it.stop)
      ((it, i) :: r.1, r.2)
    | none =>
      let r := runPairs rest (ends ++ [it.stop])
      ((it, ends.length) :: r.1, r.2)

theorem goLanes_eq_runPairs :
    ∀ (its : List Item) (ends : List Int) (m : List (String × Nat)),
      goLanes its ends m =
        ((runPairs its ends).1.foldl (fun m p => mapSet m p.1.id p.2) m,
          (runPairs its ends).2) := by
  intro its
  induction its with
  | nil => intro ends m; rfl
  | cons it rest ih =>
    intro ends m
    simp only [goLanes, runPairs]
    cases firstFit it.start ends with
    | some i => simpa using ih (ends.set i it.stop) (mapSet m it.id i)
    | none => simpa using ih (ends ++ [it.stop]) (mapSet m it.id ends.length)

/-! ### First-fit facts -/

theorem firstFit_some {s : Int} :
    ∀ {ends : List Int} {i : Nat}, firstFit s ends = some i →
      ∃ hi : i < ends.length, ends.get ⟨i, hi⟩ ≤ s := by
  intro ends
  induction ends with
  | nil => intro i h; exact absurd h (by simp [firstFit])
  | cons e es ih =>
    intro i h
    simp only [firstFit] at h
    split_ifs at h with he
    · cases h
      exact ⟨by simp, by simpa using he⟩
    · match hrec : firstFit s es with
      | none => rw [hrec] at h; simp at h
      | some j =>
        rw [hrec] at h
        obtain ⟨hj, hle⟩ := ih hrec
        have hi : j + 1 = i := by simpa using h
        subst hi
        exact ⟨by simpa using Nat.succ_lt_succ hj, by simpa using hle⟩

theorem firstFit_none {s : Int} :
    ∀ {ends : List Int}, firstFit s ends = none →
      ∀ e ∈ ends, s < e := by
  intro ends
  induction ends with
  | nil => intro _ e he; simp at he
  | cons e es ih =>
    intro h f hf
    simp only [firstFit] at h
    by_cases he : e ≤ s
    · rw [if_pos he] at h; exact absurd h (by simp)
    · rw [if_neg he] at h
      rcases List.mem_cons.mp hf with rfl | hf
      · omega
      · match hrec : firstFit s es with
        | some j => rw [hrec] at h; simp at h
        | none => exact ih hrec f hf

/-! ### Structural lemmas about the run trace -/

theorem runPairs_map_fst :
    ∀ (its : List Item) (ends : List Int),
      (runPairs its ends).1.map Prod.fst = its := by
  intro its
  induction its with
  | nil => intro ends; rfl
  | cons it rest ih =>
    intro ends
    simp only [runPairs]
    cases firstFit it.start ends with
    | some i => simpa using ih (ends.set i it.stop)
    | none => simpa using ih (ends ++ [it.stop])

theorem runPairs_ends_length_le :
    ∀ (its : List Item) (ends : List Int),
      ends.length ≤ (runPairs its ends).2.length := by
  intro its
  induction its with
  | nil => intro ends; simp [runPairs]
  | cons it rest ih =>
    intro ends
    simp only [runPairs]
    cases firstFit it.start ends with
    | some i =>
      have := ih (ends.set i it.stop)
      simpa using this
    | none =>
      have := ih (ends ++ [it.stop])
      simp only [List.length_append, List.length_cons, List.length_nil] at this
      show ends.length ≤ (runPairs rest (ends ++ [it.stop])).2.length
      omega

/-- Every assigned lane index is below the final number of lanes. -/
theorem runPairs_lane_lt :
    ∀ (its : List Item) (ends : List Int),
      ∀ p ∈ (runPairs its ends).1, p.2 < (runPairs its ends).2.length := by
  intro its
  induction its with
  | nil => intro ends p hp; simp [runPairs] at hp
  | cons it rest ih =>
    intro ends p hp
    simp only [runPairs] at hp ⊢
    cases hff : firstFit it.start ends with
    | some i =>
      rw [hff] at hp
      simp only [List.mem_cons] at hp
      rcases hp with rfl | hp
      · obtain ⟨hi, _⟩ := firstFit_some hff
        have h2 := runPairs_ends_length_le rest (ends.set i it.stop)
        simp only [List.length_set] at h2
        simp only [hff]
        omega
      · simpa [hff] using ih (ends.set i it.stop) p hp
    | none =>
      rw [hff] at hp
      simp only [List.mem_cons] at hp
      rcases hp with rfl | hp
      · have h2 := runPairs_ends_length_le rest (ends ++ [it.stop])
        simp only [List.length_append, List.length_cons, List.length_nil] at h2
        simp only [hff]
        omega
      · simpa [hff] using ih (ends ++ [it.stop]) p hp

theorem ItemLE_start_le {a b : Item} (h : ItemLE a b) : a.start ≤ b.start := by
  rcases h with h | ⟨he, _⟩
  · omega
  · omega

theorem get_set_self_eq (l : List Int) (i : Nat) (x : Int) (j : Nat)
    (h : j < (l.set i x).length) (hj : j = i) (hi : i < l.length) :
    (l.set i x).get ⟨j, h⟩ = x := by
  subst hj
  simp [List.getElem_set]

theorem get_set_of_ne (l : List Int) (i : Nat) (x : Int) (j : Nat)
    (h : j < (l.set i x).length) (h2 : j < l.length) (hne : j ≠ i) :
    (l.set i x).get ⟨j, h⟩ = l.get ⟨j, h2⟩ := by
  have hne2 : ¬ i = j := fun hh => hne hh.symm
  simp [List.getElem_set, hne2]

theorem get_append_fst (l l2 : List Int) (j : Nat)
    (h : j < (l ++ l2).length) (h2 : j < l.length) :
    (l ++ l2).get ⟨j, h⟩ = l.get ⟨j, h2⟩ := by
  simp [List.getElem_append_left, h2]

theorem get_append_last (l : List Int) (x : Int) (j : Nat)
    (h : j < (l ++ [x]).length) (hj : j = l.length) :
    (l ++ [x]).get ⟨j, h⟩ = x := by
  subst hj
  simp

/-- Every pair assigned to one of the initially existing lanes starts at or
after that lane's initially recorded end. -/
theorem runPairs_start_ge_ends :
    ∀ (its : List Item) (ends : List Int), List.Sorted ItemLE its →
      ∀ p ∈ (runPairs its ends).1, ∀ hj : p.2 < ends.length,
        ends.get ⟨p.2, hj⟩ ≤ p.1.start := by
  intro its
  induction its with
  | nil => intro ends _ p hp; simp [runPairs] at hp
  | cons it rest ih =>
    intro ends hs p hp hj
    obtain ⟨hhead, htail⟩ := List.sorted_cons.mp hs
    simp only [runPairs] at hp
    cases hff : firstFit it.start ends with
    | some i =>
      rw [hff] at hp
      obtain ⟨hi, hei⟩ := firstFit_some hff
      simp only [List.mem_cons] at hp
      rcases hp with rfl | hp
      · exact hei
      · have hp1 : p.1 ∈ rest := by
          have := runPairs_map_fst rest (ends.set i it.stop)
          rw [← this]
          exact List.mem_map_of_mem Prod.fst hp
        have hstart : it.start ≤ p.1.start := ItemLE_start_le (hhead p.1 hp1)
        by_cases hpi : p.2 = i
        · subst hpi
          calc ends.get ⟨p.2, hj⟩ ≤ it.start := by
                have : ends.get ⟨p.2, hj⟩ = ends.get ⟨p.2, hi⟩ := rfl
                rw [this]; exact hei
            _ ≤ p.1.start := hstart
        · have hj' : p.2 < (ends.set i it.stop).length := by
            simpa using hj
          have := ih (ends.set i it.stop) htail p hp hj'
          rwa [get_set_of_ne ends i it.stop p.2 hj' hj hpi] at this
    | none =>
      rw [hff] at hp
      simp only [List.mem_cons] at hp
      rcases hp with rfl | hp
      · omega
      · have hj' : p.2 < (ends ++ [it.stop]).length := by
          simp only [List.length_append, List.length_cons, List.length_nil]
          omega
        have := ih (ends ++ [it.stop]) htail p hp hj'
        rwa [get_append_fst ends [it.stop] p.2 hj' hj] at this

/-- No-conflict invariant: two assignments to the same lane are separated in
time — the later one starts at or after the earlier one ends. -/
theorem runPairs_pairwise :
    ∀ (its : List Item) (ends : List Int), List.Sorted ItemLE its →
      List.Pairwise (fun p q : Item × Nat => p.2 = q.2 → p.1.stop ≤ q.1.start)
        (runPairs its ends).1 := by
  intro its
  induction its with
  | nil => intro ends _; simp [runPairs]
  | cons it rest ih =>
    intro ends hs
    obtain ⟨hhead, htail⟩ := List.sorted_cons.mp hs
    simp only [runPairs]
    cases hff : firstFit it.start ends with
    | some i =>
      obtain ⟨hi, _⟩ := firstFit_some hff
      refine List.Pairwise.cons ?_ (ih (ends.set i it.stop) htail)
      intro q hq hlane
      have hlane' : q.2 = i := hlane.symm
      have hj2 : q.2 < (ends.set i it.stop).length := by
        simp only [List.length_set]
        omega
      have hst := runPairs_start_ge_ends rest (ends.set i it.stop) htail q hq hj2
      rwa [get_set_self_eq ends i it.stop q.2 hj2 hlane' hi] at hst
    | none =>
      refine List.Pairwise.cons ?_ (ih (ends ++ [it.stop]) htail)
      intro q hq hlane
      have hlane' : q.2 = ends.length := hlane.symm
      have hlen : q.2 < (ends ++ [it.stop]).length := by
        simp only [List.length_append, List.length_cons, List.length_nil]
        omega
      have hst := runPairs_start_ge_ends rest (ends ++ [it.stop]) htail q hq hlen
      rwa [get_append_last ends it.stop q.2 hlen hlane'] at hst

/-- Lane contiguity: every lane index between the initial count and the final
count is created by (assigned to) some processed item. -/
theorem runPairs_lane_surj :
    ∀ (its : List Item) (ends : List Int) (k : Nat),
      ends.length ≤ k → k < (runPairs its ends).2.length →
      ∃ p ∈ (runPairs its ends).1, p.2 = k := by
  intro its
  induction its with
  | nil =>
    intro ends k hk hk2
    simp only [runPairs] at hk2
    omega
  | cons it rest ih =>
    intro ends k hk hk2
    simp only [runPairs] at hk2 ⊢
    cases hff : firstFit it.start ends with
    | some i =>
      rw [hff] at hk2
      obtain ⟨p, hp, hpk⟩ := ih (ends.set i it.stop) k (by simpa using hk) hk2
      exact ⟨p, List.mem_cons_of_mem _ hp, hpk⟩
    | none =>
      rw [hff] at hk2
      by_cases hke : k = ends.length
      · exact ⟨(it, ends.length), List.mem_cons_self _ _, hke.symm⟩
      · have hk' : (ends ++ [it.stop]).length ≤ k := by
          simp only [List.length_append, List.length_cons, List.length_nil]
          omega
        obtain ⟨p, hp, hpk⟩ := ih (ends ++ [it.stop]) k hk' hk2
        exact ⟨p, List.mem_cons_of_mem _ hp, hpk⟩

/-! ### Association-list (`laneById`) lemmas -/

theorem mapSet_of_not_mem {m : List (String × Nat)} {k : String} (v : Nat)
    (h : k ∉ m.map Prod.fst) : mapSet m k v = m ++ [(k, v)] := by
  unfold mapSet
  rw [if_neg]
  intro hcon
  obtain ⟨x, hx, he⟩ := List.any_eq_true.mp hcon
  exact h (List.mem_map.mpr ⟨x, hx, of_decide_eq_true he⟩)

theorem mem_keys_mapSet {m : List (String × Nat)} {k k' : String} {v : Nat} :
    k' ∈ (mapSet m k v).map Prod.fst ↔ k' ∈ m.map Prod.fst ∨ k' = k := by
  unfold mapSet
  split_ifs with h
  · obtain ⟨x, hx, he⟩ := List.any_eq_true.mp h
    have he' : x.1 = k := of_decide_eq_true he
    have hkeys : (m.map fun p => if p.1 = k then (k, v) else p).map Prod.fst =
        m.map Prod.fst := by
      rw [List.map_map]
      refine List.map_congr_left ?_
      intro p _
      by_cases hp : p.1 = k
      · simp [hp]
      · simp [hp]
    rw [hkeys]
    constructor
    · exact Or.inl
    · rintro (hm | rfl)
      · exact hm
      · exact he' ▸ List.mem_map_of_mem Prod.fst hx
  · simp [List.mem_append]

/-- Folding `Map.set` over entries with fresh, pairwise-distinct keys just
appends them in order. -/
theorem foldl_mapSet_fresh :
    ∀ (entries : List (Item × Nat)) (m : List (String × Nat)),
      (∀ p ∈ entries, p.1.id ∉ m.map Prod.fst) →
      (entries.map (fun p => p.1.id)).Nodup →
      entries.foldl (fun m p => mapSet m p.1.id p.2) m =
        m ++ entries.map (fun p => (p.1.id, p.2)) := by
  intro entries
  induction entries with
  | nil => intro m _ _; simp
  | cons e rest ih =>
    intro m hfresh hnd
    simp only [List.foldl_cons]
    rw [mapSet_of_not_mem e.2 (hfresh e (List.mem_cons_self _ _))]
    rw [List.map_cons, List.nodup_cons] at hnd
    rw [ih (m ++ [(e.1.id, e.2)]) ?_ hnd.2]
    · simp
    · intro p hp
      rw [List.map_append]
      simp only [List.mem_append, List.map_cons, List.map_nil,
        List.mem_singleton, not_or]
      refine ⟨hfresh p (List.mem_cons_of_mem _ hp), ?_⟩
      intro hcon
      exact hnd.1 (hcon ▸ List.mem_map_of_mem (fun p => p.1.id) hp)

theorem find?_eq_of_nodup_keys :
    ∀ {l : List (String × Nat)}, (l.map Prod.fst).Nodup →
      ∀ {k : String} {v : Nat}, (k, v) ∈ l →
        l.find? (fun p => p.1 = k) = some (k, v) := by
  intro l
  induction l with
  | nil => intro _ k v hm; simp at hm
  | cons e rest ih =>
    intro hnd k v hm
    rw [List.map_cons, List.nodup_cons] at hnd
    rcases List.mem_cons.mp hm with rfl | hm
    · simp [List.find?]
    · have hne : ¬ (e.1 = k) := by
        intro hcon
        exact hnd.1 (hcon ▸ List.mem_map_of_mem Prod.fst hm)
      rw [List.find?]
      simp only [hne, decide_eq_true_eq]
      exact ih hnd.2 hm

theorem lookupLane_isSome_iff {m : List (String × Nat)} {k : String} :
    (lookupLane m k).isSome = true ↔ k ∈ m.map Prod.fst := by
  unfold lookupLane
  constructor
  · intro h
    match hf : m.find? (fun p => p.1 = k) with
    | none => rw [hf] at h; simp at h
    | some x =>
      have hpx := List.find?_some hf
      have hx := List.mem_of_find?_eq_some hf
      exact (of_decide_eq_true hpx) ▸ List.mem_map_of_mem Prod.fst hx
  · intro hm
    obtain ⟨x, hx, he⟩ := List.mem_map.mp hm
    have hs : (m.find? (fun p => p.1 = k)).isSome = true :=
      List.find?_isSome.mpr ⟨x, hx, decide_eq_true he⟩
    match hf : m.find? (fun p => p.1 = k) with
    | none => rw [hf] at hs; simp at hs
    | some y => rw [hf]; rfl

/-! ### Bridge: `computeShiftLaneLayout` in terms of the run trace -/

/-- The assignment pairs of a batch. -/
def batchPairs (shifts : List ShiftRec) : List (Item × Nat) :=
  (runPairs (sortedItems shifts) []).1

/-- The final `laneEnds` of a batch. -/
def batchEnds (shifts : List ShiftRec) : List Int :=
  (runPairs (sortedItems shifts) []).2

theorem computeShiftLaneLayout_eq (shifts : List ShiftRec) :
    computeShiftLaneLayout shifts =
      ⟨(batchPairs shifts).foldl (fun m p => mapSet m p.1.id p.2) [],
        max 1 (batchEnds shifts).length⟩ := by
  simp only [computeShiftLaneLayout, batchPairs, batchEnds]
  rw [goLanes_eq_runPairs]

theorem sortedItems_sorted (shifts : List ShiftRec) :
    List.Sorted ItemLE (sortedItems shifts) :=
  List.sorted_insertionSort ItemLE (shifts.map shiftToItem)

theorem sortedItems_perm (shifts : List ShiftRec) :
    (sortedItems shifts).Perm (shifts.map shiftToItem) :=
  List.perm_insertionSort ItemLE (shifts.map shiftToItem)

theorem batchPairs_map_fst (shifts : List ShiftRec) :
    (batchPairs shifts).map Prod.fst = sortedItems shifts :=
  runPairs_map_fst (sortedItems shifts) []

/-- Uniqueness of ids within a batch (the data-model invariant: `id` is
"unique within the set passed to one layout call"). -/
def DistinctIds (shifts : List ShiftRec) : Prop :=
  (shifts.map ShiftRec.id).Nodup

instance (shifts : List ShiftRec) : Decidable (DistinctIds shifts) := by
  unfold DistinctIds
  infer_instance

theorem sortedItems_ids_perm (shifts : List ShiftRec) :
    ((sortedItems shifts).map Item.id).Perm (shifts.map ShiftRec.id) := by
  have h1 := (sortedItems_perm shifts).map Item.id
  have h2 : (shifts.map shiftToItem).map Item.id = shifts.map ShiftRec.id := by
    rw [List.map_map]
    rfl
  rwa [h2] at h1

theorem sortedItems_ids_nodup {shifts : List ShiftRec} (h : DistinctIds shifts) :
    ((sortedItems shifts).map Item.id).Nodup :=
  ((sortedItems_ids_perm shifts).nodup_iff).mpr h

/-- Under the id-uniqueness invariant, `laneById` is exactly the list of
(id, lane) assignments in processing order. -/
theorem laneById_eq_pairs {shifts : List ShiftRec} (h : DistinctIds shifts) :
    (computeShiftLaneLayout shifts).laneById =
      (batchPairs shifts).map (fun p => (p.1.id, p.2)) := by
  rw [computeShiftLaneLayout_eq]
  have hids : ((batchPairs shifts).map (fun p => p.1.id)).Nodup := by
    have : (batchPairs shifts).map (fun p => p.1.id) =
        (sortedItems shifts).map Item.id := by
      rw [← batchPairs_map_fst shifts, List.map_map]
      rfl
    rw [this]
    exact sortedItems_ids_nodup h
  simpa using foldl_mapSet_fresh (batchPairs shifts) [] (by simp) hids

theorem batchPairs_ids_nodup {shifts : List ShiftRec} (h : DistinctIds shifts) :
    ((batchPairs shifts).map (fun p => p.1.id)).Nodup := by
  have heq : (batchPairs shifts).map (fun p => p.1.id) =
      (sortedItems shifts).map Item.id := by
    rw [← batchPairs_map_fst shifts, List.map_map]
    rfl
  rw [heq]
  exact sortedItems_ids_nodup h

theorem lookupLane_batch {shifts : List ShiftRec} (h : DistinctIds shifts)
    {it : Item} {ln : Nat} (hm : (it, ln) ∈ batchPairs shifts) :
    lookupLane (computeShiftLaneLayout shifts).laneById it.id = some ln := by
  rw [laneById_eq_pairs h]
  unfold lookupLane
  have hk : (((batchPairs shifts).map (fun p => (p.1.id, p.2))).map Prod.fst).Nodup := by
    rw [List.map_map]
    exact batchPairs_ids_nodup h
  have hmem : (it.id, ln) ∈ (batchPairs shifts).map (fun p => (p.1.id, p.2)) :=
    List.mem_map_of_mem _ hm
  rw [find?_eq_of_nodup_keys hk hmem]
  rfl

theorem exists_pair_of_mem {shifts : List ShiftRec} {A : ShiftRec}
    (hA : A ∈ shifts) : ∃ ln, (shiftToItem A, ln) ∈ batchPairs shifts := by
  have h1 : shiftToItem A ∈ sortedItems shifts := by
    unfold sortedItems
    rw [List.mem_insertionSort]
    exact List.mem_map_of_mem _ hA
  rw [← batchPairs_map_fst shifts] at h1
  obtain ⟨p, hp, he⟩ := List.mem_map.mp h1
  refine ⟨p.2, ?_⟩
  have hpe : (shiftToItem A, p.2) = p := by
    rw [← he]
  rw [hpe]
  exact hp

theorem rel_of_pairwise_mem {α : Type} {R : α → α → Prop} :
    ∀ {l : List α}, l.Pairwise R → ∀ {x y : α}, x ∈ l → y ∈ l → x ≠ y →
      R x y ∨ R y x := by
  intro l
  induction l with
  | nil => intro _ x y hx; simp at hx
  | cons a t ih =>
    intro hp x y hx hy hne
    rw [List.pairwise_cons] at hp
    rcases List.mem_cons.mp hx with hxa | hxt
    · rcases List.mem_cons.mp hy with hya | hyt
      · exact absurd (hxa.trans hya.symm) hne
      · left
        rw [hxa]
        exact hp.1 y hyt
    · rcases List.mem_cons.mp hy with hya | hyt
      · right
        rw [hya]
        exact hp.1 x hxt
      · exact ih hp.2 hxt hyt hne

/-- C1: for every batch of shifts with unique ids (the data-model invariant),
any two shifts whose parsed time ranges overlap (`A.start < B.end` and
`B.start < A.end`) are assigned different lane indices by
`computeShiftLaneLayout`. -/
theorem C1_overlapping_shifts_get_distinct_lanes
    (shifts : List ShiftRec) (hids : DistinctIds shifts)
    (A : ShiftRec) (hA : A ∈ shifts) (B : ShiftRec) (hB : B ∈ shifts)
    (hne : A.id ≠ B.id)
    (hov1 : parseTimeToMinutes A.start_time < parseTimeToMinutes B.end_time)
    (hov2 : parseTimeToMinutes B.start_time < parseTimeToMinutes A.end_time) :
    lookupLane (computeShiftLaneLayout shifts).laneById A.id ≠
      lookupLane (computeShiftLaneLayout shifts).laneById B.id := by
  obtain ⟨la, hla⟩ := exists_pair_of_mem hA
  obtain ⟨lb, hlb⟩ := exists_pair_of_mem hB
  have hLA : lookupLane (computeShiftLaneLayout shifts).laneById A.id = some la :=
    lookupLane_batch hids hla
  have hLB : lookupLane (computeShiftLaneLayout shifts).laneById B.id = some lb :=
    lookupLane_batch hids hlb
  rw [hLA, hLB]
  intro hcon
  have hlane : la = lb := Option.some.inj hcon
  have hitemne : shiftToItem A ≠ shiftToItem B := by
    intro hcon2
    exact hne (congrArg Item.id hcon2)
  have hpairne : (shiftToItem A, la) ≠ (shiftToItem B, lb) := by
    intro hcon2
    exact hitemne (congrArg Prod.fst hcon2)
  have hpw := runPairs_pairwise (sortedItems shifts) [] (sortedItems_sorted shifts)
  have := rel_of_pairwise_mem hpw hla hlb hpairne
  have hsA : (shiftToItem A).start = parseTimeToMinutes A.start_time := rfl
  have hsB : (shiftToItem B).start = parseTimeToMinutes B.start_time := rfl
  have heA : (shiftToItem A).stop = parseTimeToMinutes A.end_time := rfl
  have heB : (shiftToItem B).stop = parseTimeToMinutes B.end_time := rfl
  rcases this with hrel | hrel
  · have := hrel hlane
    simp only [hsA, heA, hsB, heB] at this hov1 hov2
    omega
  · have := hrel hlane.symm
    simp only [hsA, heA, hsB, heB] at this hov1 hov2
    omega

/-- Witness for C1 at a concrete overlapping pair. -/
theorem C1_overlapping_shifts_get_distinct_lanes_witness :
    DistinctIds
        [⟨"A", some "09:00", some "10:00"⟩, ⟨"B", some "09:30", some "10:30"⟩] ∧
      lookupLane
          (computeShiftLaneLayout
            [⟨"A", some "09:00", some "10:00"⟩,
             ⟨"B", some "09:30", some "10:30"⟩]).laneById "A" ≠
        lookupLane
          (computeShiftLaneLayout
            [⟨"A", some "09:00", some "10:00"⟩,
             ⟨"B", some "09:30", some "10:30"⟩]).laneById "B" :=
  ⟨by decide,
    C1_overlapping_shifts_get_distinct_lanes
      [⟨"A", some "09:00", some "10:00"⟩, ⟨"B", some "09:30", some "10:30"⟩]
      (by decide)
      ⟨"A", some "09:00", some "10:00"⟩ (by simp)
      ⟨"B", some "09:30", some "10:30"⟩ (by simp)
      (by decide) (by decide) (by decide)⟩

theorem batch_lane_lt {shifts : List ShiftRec} {p : Item × Nat}
    (hp : p ∈ batchPairs shifts) : p.2 < (batchEnds shifts).length :=
  runPairs_lane_lt (sortedItems shifts) [] p hp

theorem batch_lane_surj {shifts : List ShiftRec} {k : Nat}
    (hk : k < (batchEnds shifts).length) :
    ∃ p ∈ batchPairs shifts, p.2 = k :=
  runPairs_lane_surj (sortedItems shifts) [] k (Nat.zero_le k) hk

theorem batch_lanes_toFinset (shifts : List ShiftRec) :
    ((batchPairs shifts).map Prod.snd).toFinset =
      Finset.range (batchEnds shifts).length := by
  ext k
  simp only [List.mem_toFinset, List.mem_map, Finset.mem_range]
  constructor
  · rintro ⟨p, hp, rfl⟩
    exact batch_lane_lt hp
  · intro hk
    obtain ⟨p, hp, hpk⟩ := batch_lane_surj hk
    exact ⟨p, hp, hpk⟩

/-- C4: the empty batch yields `laneCount = 1` with an empty mapping, a
single shift occupies lane 0 with `laneCount = 1`, `laneCount` is never 0,
and in general `laneCount = max 1 (number of lanes actually used)`. -/
theorem C4_lane_count_bounds :
    computeShiftLaneLayout [] = ⟨[], 1⟩ ∧
      (∀ s : ShiftRec, computeShiftLaneLayout [s] = ⟨[(s.id, 0)], 1⟩) ∧
      (∀ shifts : List ShiftRec, 0 < (computeShiftLaneLayout shifts).laneCount) ∧
      (∀ shifts : List ShiftRec, DistinctIds shifts →
        (computeShiftLaneLayout shifts).laneCount =
          max 1 (((computeShiftLaneLayout shifts).laneById.map Prod.snd).dedup.length)) := by
  refine ⟨rfl, fun s => rfl, fun shifts => ?_, fun shifts h => ?_⟩
  · rw [computeShiftLaneLayout_eq]
    exact Nat.lt_of_lt_of_le Nat.zero_lt_one (Nat.le_max_left _ _)
  · have hmap : (computeShiftLaneLayout shifts).laneById.map Prod.snd =
        (batchPairs shifts).map Prod.snd := by
      rw [laneById_eq_pairs h, List.map_map]
      rfl
    have hdedup : ((batchPairs shifts).map Prod.snd).dedup.length =
        (batchEnds shifts).length := by
      rw [← List.card_toFinset, batch_lanes_toFinset, Finset.card_range]
    rw [hmap, hdedup, computeShiftLaneLayout_eq]

/-- Witness for C4 instantiating the quantified clauses at concrete inputs. -/
theorem C4_lane_count_bounds_witness :
    computeShiftLaneLayout [⟨"X", some "09:00", some "10:00"⟩] =
        ⟨[("X", 0)], 1⟩ ∧
      0 < (computeShiftLaneLayout []).laneCount ∧
      DistinctIds [⟨"X", some "09:00", some "10:00"⟩] ∧
      (computeShiftLaneLayout [⟨"X", some "09:00", some "10:00"⟩]).laneCount =
        max 1
          (((computeShiftLaneLayout
            [⟨"X", some "09:00", some "10:00"⟩]).laneById.map Prod.snd).dedup.length) :=
  ⟨C4_lane_count_bounds.2.1 ⟨"X", some "09:00", some "10:00"⟩,
    C4_lane_count_bounds.2.2.1 [],
    by decide,
    C4_lane_count_bounds.2.2.2 [⟨"X", some "09:00", some "10:00"⟩] (by decide)⟩

/-- C5: the two concrete scenarios — the staircase batch A 09:00–10:00,
B 09:30–10:30, C 10:00–11:00 yields lanes 0, 1, 0 with `laneCount = 2`
(adjacency allowed), and three identical-span shifts get three distinct
lanes with `laneCount = 3`. -/
theorem C5_concrete_scenarios :
    computeShiftLaneLayout
        [⟨"A", some "09:00", some "10:00"⟩, ⟨"B", some "09:30", some "10:30"⟩,
         ⟨"C", some "10:00", some "11:00"⟩] =
      ⟨[("A", 0), ("B", 1), ("C", 0)], 2⟩ ∧
    computeShiftLaneLayout
        [⟨"A", some "09:00", some "10:00"⟩, ⟨"B", some "09:00", some "10:00"⟩,
         ⟨"C", some "09:00", some "10:00"⟩] =
      ⟨[("A", 0), ("B", 1), ("C", 2)], 3⟩ := by
  constructor
  · decide
  · decide

/-- C9: lane indices are in range (`< laneCount`) and downward closed —
whenever lane `k` appears in `laneById`, so does every lane below it, so no
lane is created and left empty. -/
theorem C9_lane_indices_contiguous
    (shifts : List ShiftRec) (h : DistinctIds shifts) :
    (∀ e ∈ (computeShiftLaneLayout shifts).laneById,
        e.2 < (computeShiftLaneLayout shifts).laneCount) ∧
      (∀ e ∈ (computeShiftLaneLayout shifts).laneById, ∀ k < e.2,
        ∃ e2 ∈ (computeShiftLaneLayout shifts).laneById, e2.2 = k) := by
  constructor
  · intro e he
    rw [laneById_eq_pairs h] at he
    obtain ⟨p, hp, rfl⟩ := List.mem_map.mp he
    have h1 := batch_lane_lt hp
    rw [computeShiftLaneLayout_eq]
    have h2 : (batchEnds shifts).length ≤ max 1 (batchEnds shifts).length :=
      Nat.le_max_right _ _
    exact Nat.lt_of_lt_of_le h1 h2
  · intro e he k hk
    rw [laneById_eq_pairs h] at he
    obtain ⟨p, hp, rfl⟩ := List.mem_map.mp he
    have h1 := batch_lane_lt hp
    have hk2 : k < (batchEnds shifts).length := by
      simp only at hk
      omega
    obtain ⟨q, hq, hqk⟩ := batch_lane_surj hk2
    refine ⟨(q.1.id, q.2), ?_, hqk⟩
    rw [laneById_eq_pairs h]
    exact List.mem_map_of_mem _ hq

/-- Witness for C9 at a concrete two-lane batch. -/
theorem C9_lane_indices_contiguous_witness :
    DistinctIds
        [⟨"A", some "09:00", some "10:00"⟩, ⟨"B", some "09:30", some "10:30"⟩] ∧
      ((∀ e ∈ (computeShiftLaneLayout
            [⟨"A", some "09:00", some "10:00"⟩,
             ⟨"B", some "09:30", some "10:30"⟩]).laneById,
          e.2 < (computeShiftLaneLayout
            [⟨"A", some "09:00", some "10:00"⟩,
             ⟨"B", some "09:30", some "10:30"⟩]).laneCount) ∧
        (∀ e ∈ (computeShiftLaneLayout
            [⟨"A", some "09:00", some "10:00"⟩,
             ⟨"B", some "09:30", some "10:30"⟩]).laneById, ∀ k < e.2,
          ∃ e2 ∈ (computeShiftLaneLayout
            [⟨"A", some "09:00", some "10:00"⟩,
             ⟨"B", some "09:30", some "10:30"⟩]).laneById, e2.2 = k)) :=
  ⟨by decide,
    C9_lane_indices_contiguous
      [⟨"A", some "09:00", some "10:00"⟩, ⟨"B", some "09:30", some "10:30"⟩]
      (by decide)⟩

/-! ### C2: the reference greedy algorithm, written from the spec's words -/

/-- Lexicographic order on code-point sequences: "id ascending-as-string". -/
def natLexLe : List Nat → List Nat → Bool
  | [], _ => true
  | _ :: _, [] => false
  | a :: as, b :: bs =>
    if a < b then true else if a = b then natLexLe as bs else false

/-- The spec's sort key: start ascending, then end ascending, then id
ascending as a string. -/
def SpecLE (a b : Item) : Prop :=
  a.start < b.start ∨
    (a.start = b.start ∧
      (a.stop < b.stop ∨
        (a.stop = b.stop ∧
          natLexLe (a.id.data.map Char.toNat) (b.id.data.map Char.toNat) = true)))

instance : DecidableRel SpecLE := fun a b => by
  unfold SpecLE; infer_instance

/-- The spec's scan: "scan laneEnds from lane 0 upward; assign to the first
lane i where interval.start >= laneEnds[i]". -/
def specScanLane (s : Int) : List Int → Option Nat
  | [] => none
  | e :: es => if s ≥ e then some 0 else (specScanLane s es).map (fun i => i + 1)

/-- One step of the spec's loop: place the interval in the first qualifying
lane, else append a new lane; update that lane's recorded end; record the
assignment. -/
def specAssign (acc : List (String × Nat) × List Int) (it : Item) :
    List (String × Nat) × List Int :=
  match specScanLane it.start acc.2 with
  | some i => (mapSet acc.1 it.id i, acc.2.set i it.stop)
  | none => (mapSet acc.1 it.id acc.2.length, acc.2 ++ [it.stop])

/-- The reference greedy layout fixed by the spec. -/
def specLaneLayout (shifts : List ShiftRec) : LaneLayout :=
  let items := List.insertionSort SpecLE (shifts.map shiftToItem)
  let r := items.foldl specAssign ([], [])
  ⟨r.1, max 1 r.2.length⟩

theorem lexLeChars_eq_natLexLe :
    ∀ a b : List Char,
      lexLeChars a b = natLexLe (a.map Char.toNat) (b.map Char.toNat) := by
  intro a
  induction a with
  | nil => intro b; cases b <;> rfl
  | cons x xs ih =>
    intro b
    cases b with
    | nil => rfl
    | cons y ys =>
      simp only [lexLeChars, natLexLe, List.map_cons]
      by_cases h1 : x.toNat < y.toNat
      · simp [h1]
      · by_cases h2 : y.toNat < x.toNat
        · have h3 : ¬ x.toNat = y.toNat := by omega
          simp [h1, h2, h3]
        · have h3 : x.toNat = y.toNat := by omega
          simp [h1, h2, h3, ih ys]

theorem ItemLE_iff_SpecLE (a b : Item) : ItemLE a b ↔ SpecLE a b := by
  unfold ItemLE SpecLE strLe
  rw [lexLeChars_eq_natLexLe]

theorem orderedInsert_congr_on {α : Type} {r r2 : α → α → Prop}
    [DecidableRel r] [DecidableRel r2] {a : α} :
    ∀ l : List α, (∀ b ∈ l, r a b ↔ r2 a b) →
      l.orderedInsert r a = l.orderedInsert r2 a := by
  intro l
  induction l with
  | nil => intro _; rfl
  | cons b t ih =>
    intro h
    simp only [List.orderedInsert]
    by_cases hr : r a b
    · rw [if_pos hr, if_pos ((h b (List.mem_cons_self _ _)).mp hr)]
    · rw [if_neg hr,
        if_neg (fun hc => hr ((h b (List.mem_cons_self _ _)).mpr hc)),
        ih (fun x hx => h x (List.mem_cons_of_mem _ hx))]

theorem insertionSort_congr_on {α : Type} {r r2 : α → α → Prop}
    [DecidableRel r] [DecidableRel r2] :
    ∀ l : List α, (∀ a ∈ l, ∀ b ∈ l, r a b ↔ r2 a b) →
      List.insertionSort r l = List.insertionSort r2 l := by
  intro l
  induction l with
  | nil => intro _; rfl
  | cons a t ih =>
    intro h
    simp only [List.insertionSort]
    rw [ih (fun x hx y hy =>
      h x (List.mem_cons_of_mem _ hx) y (List.mem_cons_of_mem _ hy))]
    apply orderedInsert_congr_on
    intro b hb
    have hbt : b ∈ t := (List.mem_insertionSort _).mp hb
    exact h a (List.mem_cons_self _ _) b (List.mem_cons_of_mem _ hbt)

theorem firstFit_eq_specScanLane (s : Int) :
    ∀ ends : List Int, firstFit s ends = specScanLane s ends := by
  intro ends
  induction ends with
  | nil => rfl
  | cons e es ih =>
    simp only [firstFit, specScanLane]
    rw [ih]

theorem goLanes_eq_specFold :
    ∀ (its : List Item) (ends : List Int) (m : List (String × Nat)),
      goLanes its ends m = its.foldl specAssign (m, ends) := by
  intro its
  induction its with
  | nil => intro ends m; rfl
  | cons it rest ih =>
    intro ends m
    simp only [goLanes, List.foldl_cons, specAssign, ← firstFit_eq_specScanLane]
    cases firstFit it.start ends with
    | some i => exact ih (ends.set i it.stop) (mapSet m it.id i)
    | none => exact ih (ends ++ [it.stop]) (mapSet m it.id ends.length)

/-! ### C6: totality and coercion of malformed times -/

/-- The hour component handed to `parseInt` (first `":"`-separated part). -/
def hourComponent (s : String) : Option Int :=
  match (splitChars ':' s.data).take 2 with
  | p :: _ => parseIntJS p
  | [] => none

/-- The minute component handed to `parseInt` (second part, if any). -/
def minuteComponent (s : String) : Option Int :=
  match (splitChars ':' s.data).take 2 with
  | _ :: p :: _ => parseIntJS p
  | _ => none

/-- A time value that is missing, or whose hour and minute components both
fail to parse (both `parseInt` calls yield `NaN`). -/
def UnparseableTime : Option String → Prop
  | none => True
  | some s => hourComponent s = none ∧ minuteComponent s = none

instance (v : Option String) : Decidable (UnparseableTime v) :=
  match v with
  | none => isTrue True.intro
  | some s =>
    inferInstanceAs (Decidable (hourComponent s = none ∧ minuteComponent s = none))

theorem parseTimeToMinutes_some_of_ne {s : String} (hs : ¬ s = "") :
    parseTimeToMinutes (some s) =
      (hourComponent s).getD 0 * 60 + (minuteComponent s).getD 0 := by
  simp only [parseTimeToMinutes, hourComponent, minuteComponent]
  rw [if_neg hs]

theorem mem_keys_foldl_mapSet :
    ∀ (entries : List (Item × Nat)) (m : List (String × Nat)) (k : String),
      k ∈ ((entries.foldl (fun m p => mapSet m p.1.id p.2) m).map Prod.fst) ↔
        k ∈ m.map Prod.fst ∨ k ∈ entries.map (fun p => p.1.id) := by
  intro entries
  induction entries with
  | nil => intro m k; simp
  | cons e rest ih =>
    intro m k
    simp only [List.foldl_cons, List.map_cons, List.mem_cons]
    rw [ih, mem_keys_mapSet]
    tauto

/-- C6: the layout engine never fails — a missing time or a string whose
components both fail to parse is coerced to `0` minutes by
`parseTimeToMinutes`, and every input record (however malformed its times)
receives a lane in `laneById`. -/
theorem C6_never_throws_malformed_coerced_to_zero :
    (∀ v : Option String, UnparseableTime v → parseTimeToMinutes v = 0) ∧
      (∀ (shifts : List ShiftRec), ∀ sh ∈ shifts,
        ∃ ln : Nat,
          lookupLane (computeShiftLaneLayout shifts).laneById sh.id = some ln) := by
  constructor
  · intro v hv
    match v with
    | none => rfl
    | some s =>
      obtain ⟨hh, hm⟩ := hv
      by_cases hs : s = ""
      · subst hs; rfl
      · rw [parseTimeToMinutes_some_of_ne hs, hh, hm]
        rfl
  · intro shifts sh hsh
    have hid : sh.id ∈ (computeShiftLaneLayout shifts).laneById.map Prod.fst := by
      rw [computeShiftLaneLayout_eq]
      rw [mem_keys_foldl_mapSet]
      right
      have h1 : (batchPairs shifts).map (fun p => p.1.id) =
          (sortedItems shifts).map Item.id := by
        rw [← batchPairs_map_fst shifts, List.map_map]
        rfl
      rw [h1]
      have h2 : shiftToItem sh ∈ sortedItems shifts := by
        unfold sortedItems
        rw [List.mem_insertionSort]
        exact List.mem_map_of_mem _ hsh
      exact List.mem_map_of_mem Item.id h2
    exact Option.isSome_iff_exists.mp (lookupLane_isSome_iff.mpr hid)

/-- Witness for C6 at a concrete garbage record. -/
theorem C6_never_throws_malformed_coerced_to_zero_witness :
    UnparseableTime (some "garbage") ∧
      parseTimeToMinutes (some "garbage") = 0 ∧
      (⟨"X", some "garbage", none⟩ : ShiftRec) ∈
        [(⟨"X", some "garbage", none⟩ : ShiftRec)] ∧
      ∃ ln : Nat,
        lookupLane
            (computeShiftLaneLayout [⟨"X", some "garbage", none⟩]).laneById "X" =
          some ln :=
  ⟨by decide,
    C6_never_throws_malformed_coerced_to_zero.1 (some "garbage") (by decide),
    by decide,
    C6_never_throws_malformed_coerced_to_zero.2
      [⟨"X", some "garbage", none⟩] ⟨"X", some "garbage", none⟩ (by decide)⟩

/-! ### C7: geometry mapping (pixel arithmetic over ℚ) -/

/-- Layout constants from config.js. -/
def TIME_GRID_HOUR_WIDTH_PX : ℚ := 72

def TIME_GRID_HOUR_HEIGHT_PX : ℚ := 56

def SHIFT_LANE_HEIGHT_PX : ℚ := 60

def SHIFT_LANE_GAP_PX : ℚ := 4

/-- The style properties set by `applyTimedShiftChipVertical`: `top` and
`height` in px; `left`/`width` are `calc(pct% + px)` pairs. -/
structure VertChipStyle where
  top : ℚ
  height : ℚ
  leftLanePct : ℚ
  leftOffsetPx : ℚ
  widthPct : ℚ
  widthOffsetPx : ℚ
  deriving DecidableEq, Repr

/-- `applyTimedShiftChipVertical(chip, shift, laneIndex, laneCount,
hourHeightPx)` from time-utils.js, modelled on its numeric effect. -/
def applyTimedShiftChipVertical (shift : ShiftRec) (laneIndex laneCount : Int)
    (hourHeightPx : Option ℚ) : VertChipStyle :=
  let start := parseTimeToMinutes shift.start_time
  let stop := parseTimeToMinutes shift.end_time
  let durationMinutes : Int := max 0 (stop - start)
  let hourHeight : ℚ :=
    match hourHeightPx with
    | some h => if 0 < h then h else TIME_GRID_HOUR_HEIGHT_PX
    | none => TIME_GRID_HOUR_HEIGHT_PX
  let lanes : Int := max 1 laneCount
  let lane : Int := min (max 0 laneIndex) (lanes - 1)
  let pct : ℚ := 100 / (lanes : ℚ)
  { top := ((start : ℚ) / 60) * hourHeight
    height := max 18 (((durationMinutes : ℚ) / 60) * hourHeight)
    leftLanePct := (lane : ℚ) * pct
    leftOffsetPx := SHIFT_LANE_GAP_PX
    widthPct := pct
    widthOffsetPx := -(2 * SHIFT_LANE_GAP_PX) }

/-- The style properties set by `applyTimedShiftChipHorizontalDynamic`. -/
structure HorizChipStyle where
  left : ℚ
  width : ℚ
  top : ℚ
  height : ℚ
  deriving DecidableEq, Repr

/-- `applyTimedShiftChipHorizontalDynamic(chip, shift, hourStartMinutes,
laneIndex, laneCount, hourWidthPx, laneHeightPx, laneGapPx)`. -/
def applyTimedShiftChipHorizontalDynamic (shift : ShiftRec)
    (hourStartMinutes laneIndex laneCount : Int)
    (hourWidthPx laneHeightPx laneGapPx : Option ℚ) : HorizChipStyle :=
  let hourWidth : ℚ :=
    match hourWidthPx with
    | some h => if 0 < h then h else TIME_GRID_HOUR_WIDTH_PX
    | none => TIME_GRID_HOUR_WIDTH_PX
  let laneHeight : ℚ :=
    match laneHeightPx with
    | some h => if 0 < h then h else SHIFT_LANE_HEIGHT_PX
    | none => SHIFT_LANE_HEIGHT_PX
  let laneGap : ℚ :=
    match laneGapPx with
    | some g => if 0 ≤ g then g else SHIFT_LANE_GAP_PX
    | none => SHIFT_LANE_GAP_PX
  let start := parseTimeToMinutes shift.start_time
  let stop := parseTimeToMinutes shift.end_time
  let offsetMinutes : Int := max 0 (start - hourStartMinutes)
  let durationMinutes : Int := max 0 (stop - start)
  let lanes : Int := max 1 laneCount
  let lane : Int := min (max 0 laneIndex) (lanes - 1)
  { left := ((offsetMinutes : ℚ) / 60) * hourWidth
    width := max 18 (((durationMinutes : ℚ) / 60) * hourWidth)
    top := laneGap + (lane : ℚ) * (laneHeight + laneGap)
    height := laneHeight }

/-- C7: both geometry mappings position a chip at
`(minutes / 60) * pixels_per_hour` along the time axis and give it size
`max(18px, (duration_minutes / 60) * pixels_per_hour)`, so a 15-minute
interval at 60 px/hour gets size `max 18 15`. -/
theorem C7_geometry_min_size_floor :
    (∀ (shift : ShiftRec) (laneIndex laneCount : Int) (pph : ℚ), 0 < pph →
      (applyTimedShiftChipVertical shift laneIndex laneCount (some pph)).top =
          ((parseTimeToMinutes shift.start_time : ℚ) / 60) * pph ∧
        (applyTimedShiftChipVertical shift laneIndex laneCount (some pph)).height =
          max 18
            (((max 0 (parseTimeToMinutes shift.end_time -
                parseTimeToMinutes shift.start_time) : Int) : ℚ) / 60 * pph)) ∧
      (∀ (shift : ShiftRec) (hs laneIndex laneCount : Int) (pph : ℚ)
          (lh lg : Option ℚ), 0 < pph →
        (applyTimedShiftChipHorizontalDynamic shift hs laneIndex laneCount
              (some pph) lh lg).width =
            max 18
              (((max 0 (parseTimeToMinutes shift.end_time -
                  parseTimeToMinutes shift.start_time) : Int) : ℚ) / 60 * pph) ∧
          (hs = 0 → 0 ≤ parseTimeToMinutes shift.start_time →
            (applyTimedShiftChipHorizontalDynamic shift hs laneIndex laneCount
                (some pph) lh lg).left =
              ((parseTimeToMinutes shift.start_time : ℚ) / 60) * pph)) ∧
      (applyTimedShiftChipVertical ⟨"X", some "09:00", some "09:15"⟩ 0 1
          (some 60)).height = max 18 15 := by
  refine ⟨?_, ?_, ?_⟩
  · intro shift laneIndex laneCount pph hpph
    simp only [applyTimedShiftChipVertical]
    rw [if_pos hpph]
    exact ⟨rfl, rfl⟩
  · intro shift hs laneIndex laneCount pph lh lg hpph
    simp only [applyTimedShiftChipHorizontalDynamic]
    rw [if_pos hpph]
    refine ⟨rfl, ?_⟩
    intro hhs hstart
    subst hhs
    have hoff : max 0 (parseTimeToMinutes shift.start_time - 0) =
        parseTimeToMinutes shift.start_time := by omega
    rw [hoff]
  · have h1 : parseTimeToMinutes
        ((⟨"X", some "09:00", some "09:15"⟩ : ShiftRec).start_time) = 540 := by
      decide
    have h2 : parseTimeToMinutes
        ((⟨"X", some "09:00", some "09:15"⟩ : ShiftRec).end_time) = 555 := by
      decide
    simp only [applyTimedShiftChipVertical, h1, h2]
    norm_num

/-- Witness for C7 at concrete inputs discharging the hypotheses. -/
theorem C7_geometry_min_size_floor_witness :
    (0 : ℚ) < 60 ∧
      (applyTimedShiftChipVertical ⟨"A", some "09:00", some "10:30"⟩ 0 2
            (some 60)).top =
          ((parseTimeToMinutes (some "09:00") : ℚ) / 60) * 60 ∧
      (applyTimedShiftChipHorizontalDynamic ⟨"A", some "09:00", some "10:30"⟩ 0 0 2
            (some 60) none none).left =
        ((parseTimeToMinutes (some "09:00") : ℚ) / 60) * 60 :=
  ⟨by norm_num,
    (C7_geometry_min_size_floor.1 ⟨"A", some "09:00", some "10:30"⟩ 0 2 60
        (by norm_num)).1,
    (C7_geometry_min_size_floor.2.1 ⟨"A", some "09:00", some "10:30"⟩ 0 0 2 60
        none none (by norm_num)).2 rfl (by decide)⟩

/-! ### C8: the fetch helper's response parser (`parseJsonResponse`) -/

/-- A JSON-decoded JavaScript value (numbers are modelled as integers; only
truthiness of numbers matters here). -/
inductive JSVal where
  | undefined
  | null
  | bool (b : Bool)
  | num (n : Int)
  | str (s : String)
  | arr (items : List JSVal)
  | obj (fields : List (String × JSVal))

/-- JS truthiness. -/
def jsTruthy : JSVal → Bool
  | .undefined => false
  | .null => false
  | .bool b => b
  | .num n => decide (n ≠ 0)
  | .str s => decide (s ≠ "")
  | .arr _ => true
  | .obj _ => true

/-- Property access `v[k]` on a non-null value (`undefined` when absent or
when the base is a primitive). -/
def jsGet (v : JSVal) (k : String) : JSVal :=
  match v with
  | .obj fields =>
    match fields.find? (fun p => p.1 = k) with
    | some p => p.2
    | none => .undefined
  | _ => .undefined

/-- `typeof v === 'object'`. -/
def jsTypeofObject : JSVal → Bool
  | .null => true
  | .arr _ => true
  | .obj _ => true
  | _ => false

/-- `Object.values(v)` for the object/array cases reached under the guard. -/
def jsValues : JSVal → List JSVal
  | .obj fields => fields.map Prod.snd
  | .arr xs => xs
  | _ => []

/-- `Array.prototype.flat()` at depth 1. -/
def jsFlat : List JSVal → List JSVal
  | [] => []
  | v :: vs => (match v with | .arr ys => ys | w => [w]) ++ jsFlat vs

/-- `a || b`. -/
def jsOr (a b : JSVal) : JSVal := if jsTruthy a then a else b

/-- The `for (const item of messages)` loop: the first nonempty string item,
else the first truthy `item.message`; the loop variable starts as `''`. -/
def pickMessage : List JSVal → JSVal
  | [] => .str ""
  | item :: rest =>
    match item with
    | .str s => if s ≠ "" then .str s else pickMessage rest
    | other =>
      if jsTruthy other && jsTruthy (jsGet other "message") then
        jsGet other "message"
      else pickMessage rest

/-- Result of `parseJsonResponse`: the resolved payload, a thrown
`new Error(x)`, or a TypeError from accessing a property of `null`. -/
inductive JsOutcome where
  | ok (v : JSVal)
  | thrown (msg : JSVal)
  | typeError

/-- `parseJsonResponse(response)` from app.js, as a function of the HTTP
status and the JSON-decoded body (a body that fails to decode arrives here
as the empty object, per `.catch(() => ({}))`). -/
def parseJsonResponse (status : Nat) (payload : JSVal) : JsOutcome :=
  if 200 ≤ status ∧ status < 300 then .ok payload
  else
    let errs := jsGet payload "errors"
    let errorMessage : JSVal :=
      if jsTruthy payload && jsTruthy errs && jsTypeofObject errs then
        pickMessage (jsFlat (jsValues errs))
      else .str ""
    match payload with
    | .null => .typeError
    | .undefined => .typeError
    | _ => .thrown (jsOr (jsGet payload "error") (jsOr errorMessage (.str "Request failed.")))

/-! Shape of the bodies fixed by the claim, and the claim's own reading of
"the first available message". -/

/-- An entry of an `errors` field list: a string or `{message: string}`. -/
def itemShaped : JSVal → Bool
  | .str _ => true
  | .obj fs =>
    match jsGet (.obj fs) "message" with
    | .str _ => true
    | _ => false
  | _ => false

/-- `errors` is absent, or an object mapping fields to lists of shaped
items. -/
def errorsShaped : JSVal → Bool
  | .undefined => true
  | .obj fs =>
    fs.all (fun p =>
      match p.2 with
      | .arr items => items.all itemShaped
      | _ => false)
  | _ => false

/-- A response body shaped as `{error: string}` and/or
`{errors: {field: [string|{message:string}, ...], ...}}`. -/
def bodyShaped : JSVal → Bool
  | .obj fs =>
    (match jsGet (.obj fs) "error" with
     | .undefined => true
     | .str _ => true
     | _ => false) &&
      errorsShaped (jsGet (.obj fs) "errors")
  | _ => false

/-- The message an item makes available, per the claim's shapes. -/
def itemMessage (v : JSVal) : Option String :=
  match v with
  | .str s => if s = "" then none else some s
  | other =>
    match jsGet other "message" with
    | .str m => if m = "" then none else some m
    | _ => none

/-- The first available message of a flattened `errors` list. -/
def firstAvailableMessage : List JSVal → Option String
  | [] => none
  | item :: rest =>
    match itemMessage item with
    | some m => some m
    | none => firstAvailableMessage rest

/-- The error message the spec prescribes for a shaped non-2xx body. -/
def specErrMessage (payload : JSVal) : String :=
  let fallback :=
    (firstAvailableMessage (jsFlat (jsValues (jsGet payload "errors")))).getD
      "Request failed."
  match jsGet payload "error" with
  | .str e => if e = "" then fallback else e
  | _ => fallback

theorem pickMessage_shaped :
    ∀ {msgs : List JSVal}, msgs.all itemShaped = true →
      pickMessage msgs = .str ((firstAvailableMessage msgs).getD "") ∧
        (∀ m, firstAvailableMessage msgs = some m → m ≠ "") := by
  intro msgs
  induction msgs with
  | nil => intro _; exact ⟨rfl, by intro m h; simp [firstAvailableMessage] at h⟩
  | cons item rest ih =>
    intro hall
    rw [List.all_cons, Bool.and_eq_true] at hall
    obtain ⟨hitem, hrest⟩ := hall
    obtain ⟨ih1, ih2⟩ := ih hrest
    match item with
    | .str s =>
      by_cases hs : s = ""
      · subst hs
        simpa [pickMessage, firstAvailableMessage, itemMessage] using ⟨ih1, ih2⟩
      · refine ⟨?_, ?_⟩
        · simp [pickMessage, firstAvailableMessage, itemMessage, hs]
        · intro m hm
          simp only [firstAvailableMessage, itemMessage] at hm
          rw [if_neg hs] at hm
          cases hm
          exact hs
    | .obj fs =>
      simp only [itemShaped] at hitem
      match hmsg : jsGet (.obj fs) "message" with
      | .str m0 =>
        by_cases hm0 : m0 = ""
        · subst hm0
          refine ⟨?_, ?_⟩
          · simp only [pickMessage, jsTruthy, hmsg]
            simp only [firstAvailableMessage, itemMessage, hmsg]
            simpa using ih1
          · intro m hm
            simp only [firstAvailableMessage, itemMessage, hmsg] at hm
            exact ih2 m (by simpa using hm)
        · refine ⟨?_, ?_⟩
          · simp [pickMessage, jsTruthy, hmsg, hm0, firstAvailableMessage,
              itemMessage]
          · intro m hm
            simp only [firstAvailableMessage, itemMessage, hmsg] at hm
            rw [if_neg hm0] at hm
            cases hm
            exact hm0
      | .undefined => rw [hmsg] at hitem; exact absurd hitem (by simp)
      | .null => rw [hmsg] at hitem; exact absurd hitem (by simp)
      | .bool b => rw [hmsg] at hitem; exact absurd hitem (by simp)
      | .num n => rw [hmsg] at hitem; exact absurd hitem (by simp)
      | .arr xs => rw [hmsg] at hitem; exact absurd hitem (by simp)
      | .obj fs2 => rw [hmsg] at hitem; exact absurd hitem (by simp)

theorem jsFlat_values_all_shaped :
    ∀ {fs2 : List (String × JSVal)}, errorsShaped (.obj fs2) = true →
      (jsFlat (jsValues (.obj fs2))).all itemShaped = true := by
  intro fs2
  induction fs2 with
  | nil => intro _; rfl
  | cons p rest ih =>
    intro h
    simp only [errorsShaped, List.all_cons, Bool.and_eq_true] at h
    obtain ⟨hp, hrest⟩ := h
    have hrest2 : errorsShaped (.obj rest) = true := hrest
    have hihr := ih hrest2
    show ((match p.2 with | JSVal.arr ys => ys | w => [w]) ++
        jsFlat (rest.map Prod.snd)).all itemShaped = true
    rw [List.all_append, Bool.and_eq_true]
    refine ⟨?_, hihr⟩
    match hv : p.2 with
    | .arr items => rw [hv] at hp; simpa using hp
    | .undefined => rw [hv] at hp; exact absurd hp (by simp)
    | .null => rw [hv] at hp; exact absurd hp (by simp)
    | .bool b => rw [hv] at hp; exact absurd hp (by simp)
    | .num n => rw [hv] at hp; exact absurd hp (by simp)
    | .str s => rw [hv] at hp; exact absurd hp (by simp)
    | .obj fs3 => rw [hv] at hp; exact absurd hp (by simp)

theorem jsOr_undefined (x : JSVal) : jsOr JSVal.undefined x = x := rfl

theorem jsOr_empty_str (x : JSVal) : jsOr (JSVal.str "") x = x := by
  simp [jsOr, jsTruthy]

theorem fallback_message_eq {fs : List (String × JSVal)}
    (herrs : errorsShaped (jsGet (JSVal.obj fs) "errors") = true) :
    jsOr
        (if jsTruthy (JSVal.obj fs) && jsTruthy (jsGet (JSVal.obj fs) "errors") &&
            jsTypeofObject (jsGet (JSVal.obj fs) "errors") then
          pickMessage (jsFlat (jsValues (jsGet (JSVal.obj fs) "errors")))
        else .str "")
        (.str "Request failed.") =
      .str ((firstAvailableMessage
        (jsFlat (jsValues (jsGet (JSVal.obj fs) "errors")))).getD
          "Request failed.") := by
  match hged : jsGet (JSVal.obj fs) "errors" with
  | .undefined => rfl
  | .null => rw [hged] at herrs; exact absurd herrs (by simp [errorsShaped])
  | .bool b => rw [hged] at herrs; exact absurd herrs (by simp [errorsShaped])
  | .num n => rw [hged] at herrs; exact absurd herrs (by simp [errorsShaped])
  | .str s => rw [hged] at herrs; exact absurd herrs (by simp [errorsShaped])
  | .arr xs => rw [hged] at herrs; exact absurd herrs (by simp [errorsShaped])
  | .obj fs2 =>
    rw [hged] at herrs
    have hall := jsFlat_values_all_shaped herrs
    obtain ⟨hpick, hnem⟩ := pickMessage_shaped hall
    have hguard : (jsTruthy (JSVal.obj fs) && jsTruthy (JSVal.obj fs2) &&
        jsTypeofObject (JSVal.obj fs2)) = true := rfl
    rw [if_pos hguard, hpick]
    match hfam : firstAvailableMessage (jsFlat (jsValues (JSVal.obj fs2))) with
    | some m =>
      have hm := hnem m hfam
      simp [jsOr, jsTruthy, hm]
    | none => simp [jsOr, jsTruthy]

/-- C8: the response parser resolves with the decoded payload on 2xx
status; on non-2xx status with a body shaped as `{error: string}` or
`{errors: {field: [string|{message:string}, ...]}}` it throws an error
carrying the first available message, falling back to the generic
"Request failed." when neither shape yields one. -/
theorem C8_response_parser_behaviour :
    (∀ (status : Nat) (payload : JSVal), 200 ≤ status → status < 300 →
      parseJsonResponse status payload = .ok payload) ∧
      (∀ (status : Nat) (payload : JSVal), ¬ (200 ≤ status ∧ status < 300) →
        bodyShaped payload = true →
        parseJsonResponse status payload =
          .thrown (.str (specErrMessage payload))) := by
  constructor
  · intro status payload h1 h2
    simp only [parseJsonResponse]
    rw [if_pos ⟨h1, h2⟩]
  · intro status payload hstatus hshape
    match payload with
    | .undefined => exact absurd hshape (by simp [bodyShaped])
    | .null => exact absurd hshape (by simp [bodyShaped])
    | .bool b => exact absurd hshape (by simp [bodyShaped])
    | .num n => exact absurd hshape (by simp [bodyShaped])
    | .str s => exact absurd hshape (by simp [bodyShaped])
    | .arr xs => exact absurd hshape (by simp [bodyShaped])
    | .obj fs =>
      simp only [bodyShaped, Bool.and_eq_true] at hshape
      obtain ⟨herr, herrs⟩ := hshape
      simp only [parseJsonResponse]
      rw [if_neg hstatus]
      match hger : jsGet (JSVal.obj fs) "error" with
      | .undefined =>
        simp only [hger, specErrMessage]
        rw [jsOr_undefined]
        exact congrArg JsOutcome.thrown (fallback_message_eq herrs)
      | .str e =>
        by_cases he : e = ""
        · subst he
          simp only [hger, specErrMessage]
          rw [jsOr_empty_str, if_pos trivial]
          exact congrArg JsOutcome.thrown (fallback_message_eq herrs)
        · simp only [hger, specErrMessage]
          rw [if_neg he]
          have : jsOr (JSVal.str e)
              (jsOr (if jsTruthy (JSVal.obj fs) &&
                  jsTruthy (jsGet (JSVal.obj fs) "errors") &&
                  jsTypeofObject (jsGet (JSVal.obj fs) "errors") then
                pickMessage (jsFlat (jsValues (jsGet (JSVal.obj fs) "errors")))
              else .str "") (.str "Request failed.")) = JSVal.str e := by
            simp [jsOr, jsTruthy, he]
          rw [this]
      | .null => rw [hger] at herr; exact absurd herr (by simp)
      | .bool b => rw [hger] at herr; exact absurd herr (by simp)
      | .num n => rw [hger] at herr; exact absurd herr (by simp)
      | .arr xs => rw [hger] at herr; exact absurd herr (by simp)
      | .obj fs2 => rw [hger] at herr; exact absurd herr (by simp)

/-- Witness for C8 at a 2xx response and at a concrete shaped error body. -/
theorem C8_response_parser_behaviour_witness :
    parseJsonResponse 200 (JSVal.obj [("ok", JSVal.bool true)]) =
        JsOutcome.ok (JSVal.obj [("ok", JSVal.bool true)]) ∧
      ¬ ((200 : Nat) ≤ 400 ∧ (400 : Nat) < 300) ∧
      bodyShaped (JSVal.obj [("error", JSVal.str "boom")]) = true ∧
      parseJsonResponse 400 (JSVal.obj [("error", JSVal.str "boom")]) =
        JsOutcome.thrown
          (JSVal.str (specErrMessage (JSVal.obj [("error", JSVal.str "boom")]))) :=
  ⟨C8_response_parser_behaviour.1 200 (JSVal.obj [("ok", JSVal.bool true)])
      (by omega) (by omega),
    by omega,
    by decide,
    C8_response_parser_behaviour.2 400 (JSVal.obj [("error", JSVal.str "boom")])
      (by omega) (by decide)⟩

/-! ### C10: lane count versus the maximum instantaneous load -/

/-- `it` occupies the time point `t` (half-open range). -/
def coversAtB (it : Item) (t : Int) : Bool :=
  decide (it.start ≤ t) && decide (t < it.stop)

/-- Number of intervals of the batch whose `[start, end)` contains `t`. -/
def loadAt (shifts : List ShiftRec) (t : Int) : Nat :=
  (shifts.map shiftToItem).countP (fun it => coversAtB it t)

theorem loadAt_eq_filter_pairs (shifts : List ShiftRec) (t : Int) :
    loadAt shifts t =
      ((batchPairs shifts).filter (fun p => coversAtB p.1 t)).length := by
  unfold loadAt
  rw [((sortedItems_perm shifts).symm).countP_eq]
  rw [← batchPairs_map_fst shifts]
  rw [List.countP_eq_length_filter, List.filter_map, List.length_map]
  rfl

theorem load_le_lane_total (shifts : List ShiftRec) (t : Int) :
    loadAt shifts t ≤ (batchEnds shifts).length := by
  rw [loadAt_eq_filter_pairs]
  set cps := (batchPairs shifts).filter (fun p => coversAtB p.1 t) with hcps
  have hsub : cps.Sublist (batchPairs shifts) := List.filter_sublist _
  have hpw := runPairs_pairwise (sortedItems shifts) [] (sortedItems_sorted shifts)
  have hpwc : cps.Pairwise
      (fun p q : Item × Nat => p.2 = q.2 → p.1.stop ≤ q.1.start) :=
    hpw.sublist hsub
  have hcover : ∀ p ∈ cps, p.1.start ≤ t ∧ t < p.1.stop := by
    intro p hp
    have := List.mem_filter.mp hp
    have h2 := this.2
    simp only [coversAtB, Bool.and_eq_true, decide_eq_true_eq] at h2
    exact h2
  have hlanespw : cps.Pairwise (fun p q : Item × Nat => p.2 ≠ q.2) := by
    refine List.Pairwise.imp_of_mem ?_ hpwc
    intro p q hp hq hR hlane
    obtain ⟨hps, hpt⟩ := hcover p hp
    obtain ⟨hqs, hqt⟩ := hcover q hq
    have := hR hlane
    omega
  have hnd : (cps.map Prod.snd).Nodup := List.pairwise_map.mpr hlanespw
  have hlt : ∀ x ∈ cps.map Prod.snd, x < (batchEnds shifts).length := by
    intro x hx
    obtain ⟨p, hp, rfl⟩ := List.mem_map.mp hx
    exact batch_lane_lt (List.mem_filter.mp hp).1
  calc cps.length = (cps.map Prod.snd).length := (List.length_map _ _).symm
    _ = (cps.map Prod.snd).toFinset.card := (List.toFinset_card_of_nodup hnd).symm
    _ ≤ (Finset.range (batchEnds shifts).length).card := by
        refine Finset.card_le_card ?_
        intro x hx
        rw [List.mem_toFinset] at hx
        rw [Finset.mem_range]
        exact hlt x hx
    _ = (batchEnds shifts).length := Finset.card_range _

theorem batchEnds_length_pos {shifts : List ShiftRec} (hne : shifts ≠ []) :
    0 < (batchEnds shifts).length := by
  have hlen : (sortedItems shifts).length = shifts.length := by
    rw [(sortedItems_perm shifts).length_eq, List.length_map]
  have hpos : 0 < (sortedItems shifts).length := by
    rw [hlen]
    cases shifts with
    | nil => exact absurd rfl hne
    | cons a l => simp
  unfold batchEnds
  match hit : sortedItems shifts with
  | [] => rw [hit] at hpos; simp at hpos
  | it :: rest =>
    simp only [runPairs, firstFit, List.nil_append]
    have := runPairs_ends_length_le rest [it.stop]
    simp only [List.length_cons, List.length_nil] at this
    omega

theorem laneCount_eq_batchEnds_length {shifts : List ShiftRec}
    (hne : shifts ≠ []) :
    (computeShiftLaneLayout shifts).laneCount = (batchEnds shifts).length := by
  rw [computeShiftLaneLayout_eq]
  exact Nat.max_eq_right (batchEnds_length_pos hne)

/-- When an item creates lane `k`, every lane below `k` is occupied at that
item's start time: each has a recorded occupant whose interval covers it.
`G` collects all items; `P` collects assignments made before this call. -/
theorem runPairs_new_lane_covered :
    ∀ (its : List Item) (ends : List Int) (G : List Item)
      (P : List (Item × Nat)),
      List.Sorted ItemLE its →
      (∀ a ∈ its, a ∈ G) →
      (∀ j (hj : j < ends.length),
        ∃ o, (o, j) ∈ P ∧ o.stop = ends.get ⟨j, hj⟩ ∧
          ∀ f ∈ its, o.start ≤ f.start) →
      ∀ k, ends.length ≤ k → k < (runPairs its ends).2.length →
        ∃ w, (w, k) ∈ (runPairs its ends).1 ∧ w ∈ G ∧
          ∀ j, j < k →
            ∃ o, ((o, j) ∈ P ∨ (o, j) ∈ (runPairs its ends).1) ∧
              o.start ≤ w.start ∧ w.start < o.stop := by
  intro its
  induction its with
  | nil =>
    intro ends G P _ _ _ k hk hk2
    simp only [runPairs] at hk2
    omega
  | cons it rest ih =>
    intro ends G P hs hsub hE k hk hk2
    obtain ⟨hhead, htail⟩ := List.sorted_cons.mp hs
    simp only [runPairs] at hk2 ⊢
    cases hff : firstFit it.start ends with
    | some i =>
      rw [hff] at hk2
      obtain ⟨hi, _⟩ := firstFit_some hff
      have hsub2 : ∀ a ∈ rest, a ∈ G := fun a ha =>
        hsub a (List.mem_cons_of_mem _ ha)
      have hE2 : ∀ j (hj : j < (ends.set i it.stop).length),
          ∃ o, (o, j) ∈ P ++ [(it, i)] ∧
            o.stop = (ends.set i it.stop).get ⟨j, hj⟩ ∧
            ∀ f ∈ rest, o.start ≤ f.start := by
        intro j hj
        by_cases hji : j = i
        · subst hji
          refine ⟨it, List.mem_append_right _ (List.mem_singleton.mpr rfl), ?_, ?_⟩
          · rw [get_set_self_eq ends j it.stop j hj rfl (by simpa using hj)]
          · intro f hf
            exact ItemLE_start_le (hhead f hf)
        · have hj2 : j < ends.length := by simpa using hj
          obtain ⟨o, hoP, host, hofut⟩ := hE j hj2
          refine ⟨o, List.mem_append_left _ hoP, ?_, ?_⟩
          · rw [get_set_of_ne ends i it.stop j hj hj2 hji]
            exact host
          · intro f hf
            exact hofut f (List.mem_cons_of_mem _ hf)
      have hk1 : (ends.set i it.stop).length ≤ k := by simpa using hk
      obtain ⟨w, hw, hwG, hcov⟩ :=
        ih (ends.set i it.stop) G (P ++ [(it, i)]) htail hsub2 hE2 k hk1 hk2
      refine ⟨w, List.mem_cons_of_mem _ hw, hwG, ?_⟩
      intro j hj
      obtain ⟨o, hom, ho1, ho2⟩ := hcov j hj
      refine ⟨o, ?_, ho1, ho2⟩
      rcases hom with hom | hom
      · rcases List.mem_append.mp hom with hom | hom
        · exact Or.inl hom
        · right
          rw [List.mem_singleton.mp hom]
          exact List.mem_cons_self _ _
      · exact Or.inr (List.mem_cons_of_mem _ hom)
    | none =>
      rw [hff] at hk2
      by_cases hke : k = ends.length
      · subst hke
        refine ⟨it, List.mem_cons_self _ _, hsub it (List.mem_cons_self _ _), ?_⟩
        intro j hj
        obtain ⟨o, hoP, host, hofut⟩ := hE j hj
        refine ⟨o, Or.inl hoP, hofut it (List.mem_cons_self _ _), ?_⟩
        rw [host]
        exact firstFit_none hff _ (List.get_mem ends _ hj)
      · have hsub2 : ∀ a ∈ rest, a ∈ G := fun a ha =>
          hsub a (List.mem_cons_of_mem _ ha)
        have hE2 : ∀ j (hj : j < (ends ++ [it.stop]).length),
            ∃ o, (o, j) ∈ P ++ [(it, ends.length)] ∧
              o.stop = (ends ++ [it.stop]).get ⟨j, hj⟩ ∧
              ∀ f ∈ rest, o.start ≤ f.start := by
          intro j hj
          have hj3 : j < ends.length + 1 := by simpa using hj
          by_cases hjl : j = ends.length
          · refine ⟨it,
              List.mem_append_right _
                (List.mem_singleton.mpr (by rw [hjl])), ?_, ?_⟩
            · rw [get_append_last ends it.stop j hj hjl]
            · intro f hf
              exact ItemLE_start_le (hhead f hf)
          · have hj2 : j < ends.length := by omega
            obtain ⟨o, hoP, host, hofut⟩ := hE j hj2
            refine ⟨o, List.mem_append_left _ hoP, ?_, ?_⟩
            · rw [get_append_fst ends [it.stop] j hj hj2]
              exact host
            · intro f hf
              exact hofut f (List.mem_cons_of_mem _ hf)
        have hk1 : (ends ++ [it.stop]).length ≤ k := by
          simp only [List.length_append, List.length_cons, List.length_nil]
          omega
        obtain ⟨w, hw, hwG, hcov⟩ :=
          ih (ends ++ [it.stop]) G (P ++ [(it, ends.length)]) htail hsub2 hE2
            k hk1 hk2
        refine ⟨w, List.mem_cons_of_mem _ hw, hwG, ?_⟩
        intro j hj
        obtain ⟨o, hom, ho1, ho2⟩ := hcov j hj
        refine ⟨o, ?_, ho1, ho2⟩
        rcases hom with hom | hom
        · rcases List.mem_append.mp hom with hom | hom
          · exact Or.inl hom
          · right
            rw [List.mem_singleton.mp hom]
            exact List.mem_cons_self _ _
        · exact Or.inr (List.mem_cons_of_mem _ hom)

theorem exists_time_with_full_load (shifts : List ShiftRec) (hne : shifts ≠ [])
    (hwf : ∀ sh ∈ shifts,
      parseTimeToMinutes sh.start_time < parseTimeToMinutes sh.end_time) :
    ∃ t : Int, (batchEnds shifts).length ≤ loadAt shifts t := by
  have hnpos : 0 < (batchEnds shifts).length := batchEnds_length_pos hne
  obtain ⟨w, hw, hwG, hcov⟩ :=
    runPairs_new_lane_covered (sortedItems shifts) [] (sortedItems shifts) []
      (sortedItems_sorted shifts) (fun a ha => ha)
      (by intro j hj; simp at hj)
      ((batchEnds shifts).length - 1) (by simp)
      (by
        show (batchEnds shifts).length - 1 < (batchEnds shifts).length
        omega)
  have hwfI : ∀ a ∈ sortedItems shifts, a.start < a.stop := by
    intro a ha
    unfold sortedItems at ha
    rw [List.mem_insertionSort] at ha
    obtain ⟨sh, hsh, rfl⟩ := List.mem_map.mp ha
    exact hwf sh hsh
  refine ⟨w.start, ?_⟩
  rw [loadAt_eq_filter_pairs]
  set cps := (batchPairs shifts).filter (fun p => coversAtB p.1 w.start) with hcpsdef
  have hjs : ∀ j, j < (batchEnds shifts).length → ∃ p ∈ cps, p.2 = j := by
    intro j hj
    by_cases hjn : j = (batchEnds shifts).length - 1
    · refine ⟨(w, (batchEnds shifts).length - 1), ?_, by rw [hjn]⟩
      rw [hcpsdef, List.mem_filter]
      constructor
      · exact hw
      · simp only [coversAtB, Bool.and_eq_true, decide_eq_true_eq]
        exact ⟨le_refl _, hwfI w hwG⟩
    · have hj2 : j < (batchEnds shifts).length - 1 := by omega
      obtain ⟨o, hom, ho1, ho2⟩ := hcov j hj2
      rcases hom with hom | hom
      · simp at hom
      · refine ⟨(o, j), ?_, rfl⟩
        rw [hcpsdef, List.mem_filter]
        refine ⟨hom, ?_⟩
        simp only [coversAtB, Bool.and_eq_true, decide_eq_true_eq]
        exact ⟨ho1, ho2⟩
  have hsubset : Finset.range (batchEnds shifts).length ⊆
      (cps.map Prod.snd).toFinset := by
    intro j hj
    rw [Finset.mem_range] at hj
    obtain ⟨p, hp, hpj⟩ := hjs j hj
    rw [List.mem_toFinset]
    exact hpj ▸ List.mem_map_of_mem Prod.snd hp
  calc (batchEnds shifts).length
      = (Finset.range (batchEnds shifts).length).card :=
        (Finset.card_range _).symm
    _ ≤ (cps.map Prod.snd).toFinset.card := Finset.card_le_card hsubset
    _ ≤ (cps.map Prod.snd).length := List.toFinset_card_le _
    _ = cps.length := List.length_map _ _

/-- C10 counterexample: a well-formed batch in the claim's sense
(`end >= start` throughout, non-empty) on which `laneCount = 2` although no
time point is covered by more than one interval — the zero-length interval
B forces a second lane but covers nothing. -/
theorem C10_counterexample_zero_length_interval :
    (computeShiftLaneLayout
        [⟨"A", some "00:00", some "00:10"⟩,
         ⟨"B", some "00:05", some "00:05"⟩]).laneCount = 2 ∧
      (∀ sh ∈ ([⟨"A", some "00:00", some "00:10"⟩,
          ⟨"B", some "00:05", some "00:05"⟩] : List ShiftRec),
        parseTimeToMinutes sh.start_time ≤ parseTimeToMinutes sh.end_time) ∧
      ∀ t : Int,
        loadAt
            [⟨"A", some "00:00", some "00:10"⟩,
             ⟨"B", some "00:05", some "00:05"⟩] t ≤ 1 := by
  refine ⟨by decide, by decide, ?_⟩
  intro t
  have hmap : (([⟨"A", some "00:00", some "00:10"⟩,
      ⟨"B", some "00:05", some "00:05"⟩] : List ShiftRec).map shiftToItem) =
      [⟨"A", 0, 10⟩, ⟨"B", 5, 5⟩] := by decide
  unfold loadAt
  rw [hmap]
  simp only [List.countP_cons, List.countP_nil, coversAtB, Bool.and_eq_true,
    decide_eq_true_eq]
  split_ifs <;> omega

/-- C10 (amended: every interval must have strictly positive parsed
duration, `end > start`, rather than `end >= start`): for such non-empty
batches the returned `laneCount` equals the maximum, over all time points
`t`, of the number of intervals covering `t` — the bound holds everywhere
and is attained. -/
theorem C10_lane_count_equals_max_load
    (shifts : List ShiftRec) (hne : shifts ≠ [])
    (hwf : ∀ sh ∈ shifts,
      parseTimeToMinutes sh.start_time < parseTimeToMinutes sh.end_time) :
    (∀ t : Int, loadAt shifts t ≤ (computeShiftLaneLayout shifts).laneCount) ∧
      ∃ t : Int, loadAt shifts t = (computeShiftLaneLayout shifts).laneCount := by
  have hlc := laneCount_eq_batchEnds_length hne
  constructor
  · intro t
    rw [hlc]
    exact load_le_lane_total shifts t
  · obtain ⟨t, ht⟩ := exists_time_with_full_load shifts hne hwf
    refine ⟨t, ?_⟩
    rw [hlc]
    exact le_antisymm (load_le_lane_total shifts t) ht

/-- Witness for the amended C10 at a concrete overlapping batch. -/
theorem C10_lane_count_equals_max_load_witness :
    ([⟨"A", some "09:00", some "10:00"⟩, ⟨"B", some "09:30", some "10:30"⟩] :
        List ShiftRec) ≠ [] ∧
      (∀ sh ∈ ([⟨"A", some "09:00", some "10:00"⟩,
          ⟨"B", some "09:30", some "10:30"⟩] : List ShiftRec),
        parseTimeToMinutes sh.start_time < parseTimeToMinutes sh.end_time) ∧
      ((∀ t : Int,
          loadAt
              [⟨"A", some "09:00", some "10:00"⟩,
               ⟨"B", some "09:30", some "10:30"⟩] t ≤
            (computeShiftLaneLayout
              [⟨"A", some "09:00", some "10:00"⟩,
               ⟨"B", some "09:30", some "10:30"⟩]).laneCount) ∧
        ∃ t : Int,
          loadAt
              [⟨"A", some "09:00", some "10:00"⟩,
               ⟨"B", some "09:30", some "10:30"⟩] t =
            (computeShiftLaneLayout
              [⟨"A", some "09:00", some "10:00"⟩,
               ⟨"B", some "09:30", some "10:30"⟩]).laneCount) :=
  ⟨by decide, by decide,
    C10_lane_count_equals_max_load
      [⟨"A", some "09:00", some "10:00"⟩, ⟨"B", some "09:30", some "10:30"⟩]
      (by decide) (by decide)⟩

/-! ### Collation-parametric layout: `localeCompare` is host-defined

The sort comparator's tie-break is `a.id.localeCompare(b.id)`.  ECMA-402
leaves its collation to the host's locale data: the default ICU collation
orders "a" before "B" (code-point order gives the opposite), and ECMA-262
requires canonically equivalent strings to compare equal.  The layout is
therefore modelled with the id collation `cle` (the truth of
`localeCompare(a, b) <= 0`) as a parameter; `computeShiftLaneLayout` above
is its instantiation at code-point order. -/

/-- Comparator with the id collation as a parameter. -/
def ItemLEWith (cle : String → String → Bool) (a b : Item) : Prop :=
  a.start < b.start ∨
    (a.start = b.start ∧
      (a.stop < b.stop ∨ (a.stop = b.stop ∧ cle a.id b.id = true)))

instance (cle : String → String → Bool) : DecidableRel (ItemLEWith cle) :=
  fun a b => by unfold ItemLEWith; infer_instance

/-- The `.map(...).sort(...)` pipeline under the collation `cle`. -/
def sortedItemsWith (cle : String → String → Bool)
    (shifts : List ShiftRec) : List Item :=
  List.insertionSort (ItemLEWith cle) (shifts.map shiftToItem)

/-- Function `computeShiftLaneLayout(shifts)` with the host id collation as
a parameter. -/
def computeShiftLaneLayoutWith (cle : String → String → Bool)
    (shifts : List ShiftRec) : LaneLayout :=
  let items := sortedItemsWith cle shifts
  let r := goLanes items [] []
  { laneById := r.1, laneCount := max 1 r.2.length }

theorem computeShiftLaneLayoutWith_strLe (shifts : List ShiftRec) :
    computeShiftLaneLayoutWith strLe shifts = computeShiftLaneLayout shifts := by
  simp only [computeShiftLaneLayoutWith, computeShiftLaneLayout,
    sortedItemsWith, sortedItems]
  rw [@insertionSort_congr_on _ (ItemLEWith strLe) ItemLE _ _
    (shifts.map shiftToItem) (fun a _ b _ => Iff.rfl)]

theorem natLexLe_refl : ∀ l : List Nat, natLexLe l l = true := by
  intro l
  induction l with
  | nil => rfl
  | cons a as ih => simp [natLexLe, Nat.lt_irrefl, ih]

theorem lexLeChars_refl : ∀ l : List Char, lexLeChars l l = true := by
  intro l
  induction l with
  | nil => rfl
  | cons a as ih => simp [lexLeChars, Nat.lt_irrefl, ih]

theorem strLe_refl (s : String) : strLe s s = true := lexLeChars_refl s.data

theorem ItemLEWith_total (cle : String → String → Bool)
    (htot : ∀ s t, cle s t = true ∨ cle t s = true) :
    ∀ a b : Item, ItemLEWith cle a b ∨ ItemLEWith cle b a := by
  intro a b
  unfold ItemLEWith
  rcases Int.lt_trichotomy a.start b.start with h | h | h
  · left; left; exact h
  · rcases Int.lt_trichotomy a.stop b.stop with h2 | h2 | h2
    · left; right; exact ⟨h, Or.inl h2⟩
    · rcases htot a.id b.id with h3 | h3
      · left; right; exact ⟨h, Or.inr ⟨h2, h3⟩⟩
      · right; right; exact ⟨h.symm, Or.inr ⟨h2.symm, h3⟩⟩
    · right; right; exact ⟨h.symm, Or.inl h2⟩
  · right; left; exact h

theorem ItemLEWith_trans (cle : String → String → Bool)
    (htrans : ∀ s t u, cle s t = true → cle t u = true → cle s u = true) :
    ∀ a b c : Item, ItemLEWith cle a b → ItemLEWith cle b c →
      ItemLEWith cle a c := by
  intro a b c hab hbc
  unfold ItemLEWith at hab hbc ⊢
  rcases hab with h | ⟨he, h⟩ <;> rcases hbc with h2 | ⟨he2, h2⟩
  · left; exact lt_trans h h2
  · left; omega
  · left; omega
  · right
    refine ⟨by omega, ?_⟩
    rcases h with h | ⟨hs, h⟩ <;> rcases h2 with h2 | ⟨hs2, h2⟩
    · left; exact lt_trans h h2
    · left; omega
    · left; omega
    · right; exact ⟨by omega, htrans _ _ _ h h2⟩

/-- Sorted permutations with antisymmetry on their members coincide. -/
theorem eq_of_perm_of_sorted_local {α : Type} {r : α → α → Prop} :
    ∀ {l1 l2 : List α}, l1.Perm l2 → List.Sorted r l1 → List.Sorted r l2 →
      (∀ a ∈ l1, ∀ b ∈ l1, r a b → r b a → a = b) → l1 = l2 := by
  intro l1
  induction l1 with
  | nil =>
    intro l2 hp _ _ _
    exact (hp.symm.eq_nil).symm
  | cons a t ih =>
    intro l2 hp hs1 hs2 hanti
    cases l2 with
    | nil => exact absurd hp.eq_nil (by simp)
    | cons b t2 =>
      have hab : a = b := by
        have hbmem : b ∈ a :: t := hp.mem_iff.mpr (List.mem_cons_self b t2)
        have hamem : a ∈ b :: t2 := hp.mem_iff.mp (List.mem_cons_self a t)
        rcases List.mem_cons.mp hbmem with h | h
        · exact h.symm
        · rcases List.mem_cons.mp hamem with h2 | h2
          · exact h2
          · have hrab : r a b := (List.sorted_cons.mp hs1).1 b h
            have hrba : r b a := (List.sorted_cons.mp hs2).1 a h2
            exact hanti a (List.mem_cons_self _ _) b hbmem hrab hrba
      subst hab
      have hpt : t.Perm t2 := hp.cons_inv
      rw [ih hpt (List.sorted_cons.mp hs1).2 (List.sorted_cons.mp hs2).2
        (fun x hx y hy =>
          hanti x (List.mem_cons_of_mem _ hx) y (List.mem_cons_of_mem _ hy))]

/-! Concrete host collations carrying the two normative facts cited above. -/

/-- Case-folded code points: ECMA-402's default (ICU root) collation orders
letters case-insensitively at primary strength, so "a" sorts before "B". -/
def foldedCodePoints (s : String) : List Nat :=
  s.data.map (fun c =>
    if 65 ≤ c.toNat && c.toNat ≤ 90 then c.toNat + 32 else c.toNat)

/-- A host collation with the default-ICU property that matters here:
"a" before "B" (primary-strength case folding, then code points). -/
def hostCaseInsensitiveLe (a b : String) : Bool :=
  natLexLe (foldedCodePoints a) (foldedCodePoints b)

/-- Canonical composition of U+0061 U+0308 into U+00E4 — ECMA-262 requires
`localeCompare` to return 0 on canonically equivalent strings. -/
def composeDiaeresis : List Char → List Char
  | [] => []
  | 'a' :: c :: rest =>
    if c = '\u0308' then '\u00E4' :: composeDiaeresis rest
    else 'a' :: composeDiaeresis (c :: rest)
  | c :: rest => c :: composeDiaeresis rest

/-- A host collation respecting canonical equivalence on the pair used in
the C3 counterexample: compare composed forms by code point, so
"\u00E4" and "a\u0308" tie. -/
def hostCanonicalLe (a b : String) : Bool :=
  natLexLe ((composeDiaeresis a.data).map Char.toNat)
    ((composeDiaeresis b.data).map Char.toNat)

/-- C2 counterexample: under a host collation with the default-ICU ordering
"a" before "B", two equal-time shifts with ids "B" and "a" are laid out
differently from the spec's reference greedy (whose tie-break is
lexicographic-as-string, putting "B" first). -/
theorem C2_counterexample_locale_tiebreak :
    computeShiftLaneLayoutWith hostCaseInsensitiveLe
        [⟨"B", some "09:00", some "10:00"⟩, ⟨"a", some "09:00", some "10:00"⟩] ≠
      specLaneLayout
        [⟨"B", some "09:00", some "10:00"⟩, ⟨"a", some "09:00", some "10:00"⟩] := by
  decide

/-- C2 (amended: restricted to batches in which no two intervals share both
the parsed start and the parsed end, so the host tie-break is never
decisive): for every reflexive id collation, the layout equals the
reference greedy algorithm the spec fixes. -/
theorem C2_matches_reference_greedy_without_time_ties
    (cle : String → String → Bool) (shifts : List ShiftRec)
    (hrefl : ∀ s : String, cle s s = true)
    (hties : ∀ a ∈ shifts.map shiftToItem, ∀ b ∈ shifts.map shiftToItem,
      a.start = b.start → a.stop = b.stop → a = b) :
    computeShiftLaneLayoutWith cle shifts = specLaneLayout shifts := by
  have hagree : ∀ a ∈ shifts.map shiftToItem, ∀ b ∈ shifts.map shiftToItem,
      ItemLEWith cle a b ↔ SpecLE a b := by
    intro a ha b hb
    unfold ItemLEWith SpecLE
    by_cases h1 : a.start = b.start
    · by_cases h2 : a.stop = b.stop
      · have hab : a = b := hties a ha b hb h1 h2
        subst hab
        constructor
        · intro _
          exact Or.inr ⟨rfl, Or.inr ⟨rfl, natLexLe_refl _⟩⟩
        · intro _
          exact Or.inr ⟨rfl, Or.inr ⟨rfl, hrefl a.id⟩⟩
      · constructor
        · rintro (h | ⟨he, h | ⟨he2, _⟩⟩)
          · left; exact h
          · exact Or.inr ⟨he, Or.inl h⟩
          · exact absurd he2 h2
        · rintro (h | ⟨he, h | ⟨he2, _⟩⟩)
          · left; exact h
          · exact Or.inr ⟨he, Or.inl h⟩
          · exact absurd he2 h2
    · constructor
      · rintro (h | ⟨he, _⟩)
        · left; exact h
        · exact absurd he h1
      · rintro (h | ⟨he, _⟩)
        · left; exact h
        · exact absurd he h1
  have hsorts : sortedItemsWith cle shifts =
      List.insertionSort SpecLE (shifts.map shiftToItem) := by
    unfold sortedItemsWith
    exact insertionSort_congr_on _ hagree
  simp only [computeShiftLaneLayoutWith, specLaneLayout]
  rw [hsorts, goLanes_eq_specFold]

/-- Witness for the amended C2 at a concrete tie-free batch. -/
theorem C2_matches_reference_greedy_without_time_ties_witness :
    (∀ s : String, strLe s s = true) ∧
      (∀ a ∈ ([⟨"A", some "09:00", some "10:00"⟩,
            ⟨"B", some "09:30", some "10:30"⟩] : List ShiftRec).map shiftToItem,
        ∀ b ∈ ([⟨"A", some "09:00", some "10:00"⟩,
            ⟨"B", some "09:30", some "10:30"⟩] : List ShiftRec).map shiftToItem,
        a.start = b.start → a.stop = b.stop → a = b) ∧
      computeShiftLaneLayoutWith strLe
          [⟨"A", some "09:00", some "10:00"⟩, ⟨"B", some "09:30", some "10:30"⟩] =
        specLaneLayout
          [⟨"A", some "09:00", some "10:00"⟩, ⟨"B", some "09:30", some "10:30"⟩] :=
  ⟨strLe_refl, by decide,
    C2_matches_reference_greedy_without_time_ties strLe
      [⟨"A", some "09:00", some "10:00"⟩, ⟨"B", some "09:30", some "10:30"⟩]
      strLe_refl (by decide)⟩

/-- C3 counterexample: with a host collation honouring ECMA-262's canonical
equivalence, two permutations of the same batch with unique ids
("\u00E4" versus "a\u0308", equal times) yield different `laneById` — the
stable sort preserves input order on the tied pair. -/
theorem C3_counterexample_canonical_equivalence :
    ([⟨"\u00E4", some "09:00", some "10:00"⟩,
        ⟨"a\u0308", some "09:00", some "10:00"⟩] : List ShiftRec).Perm
        [⟨"a\u0308", some "09:00", some "10:00"⟩,
         ⟨"\u00E4", some "09:00", some "10:00"⟩] ∧
      computeShiftLaneLayoutWith hostCanonicalLe
          [⟨"\u00E4", some "09:00", some "10:00"⟩,
           ⟨"a\u0308", some "09:00", some "10:00"⟩] ≠
        computeShiftLaneLayoutWith hostCanonicalLe
          [⟨"a\u0308", some "09:00", some "10:00"⟩,
           ⟨"\u00E4", some "09:00", some "10:00"⟩] :=
  ⟨List.Perm.swap _ _ _, by decide⟩

/-- C3 (amended: restricted to batches whose comparator distinguishes
distinct intervals — no two distinct intervals with equal parsed start,
equal parsed end, and collation-tied ids): for every total, transitive host
id collation, permutations of such a batch yield identical `laneById` and
`laneCount`. -/
theorem C3_permutation_invariant_discriminated
    (cle : String → String → Bool)
    (htot : ∀ s t, cle s t = true ∨ cle t s = true)
    (htrans : ∀ s t u, cle s t = true → cle t u = true → cle s u = true)
    (l1 l2 : List ShiftRec) (hperm : l1.Perm l2)
    (hties : ∀ a ∈ l1.map shiftToItem, ∀ b ∈ l1.map shiftToItem,
      a.start = b.start → a.stop = b.stop →
      cle a.id b.id = true → cle b.id a.id = true → a = b) :
    computeShiftLaneLayoutWith cle l1 = computeShiftLaneLayoutWith cle l2 := by
  haveI : IsTotal Item (ItemLEWith cle) := ⟨ItemLEWith_total cle htot⟩
  haveI : IsTrans Item (ItemLEWith cle) := ⟨ItemLEWith_trans cle htrans⟩
  have hs1 : List.Sorted (ItemLEWith cle) (sortedItemsWith cle l1) := by
    unfold sortedItemsWith
    exact List.sorted_insertionSort _ _
  have hs2 : List.Sorted (ItemLEWith cle) (sortedItemsWith cle l2) := by
    unfold sortedItemsWith
    exact List.sorted_insertionSort _ _
  have hperm2 : (sortedItemsWith cle l1).Perm (sortedItemsWith cle l2) := by
    unfold sortedItemsWith
    exact ((List.perm_insertionSort _ _).trans (hperm.map shiftToItem)).trans
      (List.perm_insertionSort _ _).symm
  have hanti : ∀ a ∈ sortedItemsWith cle l1, ∀ b ∈ sortedItemsWith cle l1,
      ItemLEWith cle a b → ItemLEWith cle b a → a = b := by
    intro a ha b hb hab hba
    have ha2 : a ∈ l1.map shiftToItem := by
      unfold sortedItemsWith at ha
      exact (List.mem_insertionSort _).mp ha
    have hb2 : b ∈ l1.map shiftToItem := by
      unfold sortedItemsWith at hb
      exact (List.mem_insertionSort _).mp hb
    unfold ItemLEWith at hab hba
    have hstart : a.start = b.start := by
      rcases hab with h | ⟨he, _⟩ <;> rcases hba with h2 | ⟨he2, _⟩ <;> omega
    have hstop : a.stop = b.stop := by
      rcases hab with h | ⟨he, h3 | ⟨he3, _⟩⟩ <;>
        rcases hba with h2 | ⟨he2, h4 | ⟨he4, _⟩⟩ <;> omega
    have hcle1 : cle a.id b.id = true := by
      rcases hab with h | ⟨he, h3 | ⟨he3, hc⟩⟩
      · exact absurd h (by omega)
      · exact absurd h3 (by omega)
      · exact hc
    have hcle2 : cle b.id a.id = true := by
      rcases hba with h | ⟨he, h3 | ⟨he3, hc⟩⟩
      · exact absurd h (by omega)
      · exact absurd h3 (by omega)
      · exact hc
    exact hties a ha2 b hb2 hstart hstop hcle1 hcle2
  have heq : sortedItemsWith cle l1 = sortedItemsWith cle l2 :=
    eq_of_perm_of_sorted_local hperm2 hs1 hs2 hanti
  simp only [computeShiftLaneLayoutWith]
  rw [heq]

/-- Witness for the amended C3 at a concrete two-element permutation. -/
theorem C3_permutation_invariant_discriminated_witness :
    (∀ s t : String, strLe s t = true ∨ strLe t s = true) ∧
      ([⟨"A", some "09:00", some "10:00"⟩, ⟨"B", some "09:30", some "10:30"⟩] :
          List ShiftRec).Perm
          [⟨"B", some "09:30", some "10:30"⟩,
           ⟨"A", some "09:00", some "10:00"⟩] ∧
      computeShiftLaneLayoutWith strLe
          [⟨"A", some "09:00", some "10:00"⟩, ⟨"B", some "09:30", some "10:30"⟩] =
        computeShiftLaneLayoutWith strLe
          [⟨"B", some "09:30", some "10:30"⟩,
           ⟨"A", some "09:00", some "10:00"⟩] :=
  ⟨strLe_total, List.Perm.swap _ _ _,
    C3_permutation_invariant_discriminated strLe strLe_total
      (fun s t u h1 h2 => strLe_trans h1 h2)
      [⟨"A", some "09:00", some "10:00"⟩, ⟨"B", some "09:30", some "10:30"⟩]
      [⟨"B", some "09:30", some "10:30"⟩, ⟨"A", some "09:00", some "10:00"⟩]
      (List.Perm.swap _ _ _) (by decide)⟩


end BP
